import Mathlib

/-!
# Verification of `zip_tree.py`

A shallow embedding of the core of `zip_tree.py`:

* the tree builder `sizes_to_graph` (manifest of `(path, size)` records →
  path-keyed digraph with lazily aggregated attributes),
* the memoizing aggregator `size_descendants`,
* the stack-based partition selector `dfs` / `yield_zips`.

Modelling conventions:

* A filesystem path (`pathlib.Path`) is its list of components
  (`Path("a/b")` ↦ `["a", "b"]`); the root sentinel `Path(".")` is `[]`.
  `Path.parents` is `parentsList` (nearest ancestor first, ending with `[]`).
* The `networkx.OrderedDiGraph` is `GState`: an insertion-ordered
  association list of nodes with their attribute dictionaries (keys
  `size` / `descendants`, each possibly absent = Python `None`), an
  insertion-ordered duplicate-free edge list, and the two running totals.
* Python machine-level integers are `Nat` (they are non-negative byte
  sizes and counts; no overflow in Python).  The float division in the
  density test is modelled over `Rat`; the branch structure (including
  the short-circuit of `or` and the `ZeroDivisionError` raised when a
  zero-size subtree reaches the division) is modelled exactly.
* Recursive / looping code takes a fuel parameter and returns `none`
  when fuel runs out (a partiality artifact only; theorems quantify over
  fuels).  A `ZeroDivisionError` escaping `yield_abort_if` is the
  distinguished value `ZRes.divZero`; `none` from a node lookup models
  the `KeyError` of `g.nodes[node]` on a missing node.
* `tqdm` progress bars and `logging` calls have no effect on the graph
  or the output except for the `node_descendants(g, node)` calls they
  force, which mutate the memoization cache; those calls are modelled.
-/

set_option maxHeartbeats 1000000

namespace ZipTree

/-- A filesystem path as its list of components; `Path(".")` is `[]`. -/
abbrev FPath := List String

/-- One manifest record: `(path, size-in-bytes)`. -/
abbrev Manifest := List (FPath × Nat)

/-- The attribute dictionary of one graph node: the `size` and
`descendants` entries, each possibly absent (Python `None` / missing). -/
structure NodeData where
  size : Option Nat
  descendants : Option Nat
deriving DecidableEq, Repr, Inhabited

/-- The `nx.OrderedDiGraph` together with the two running totals of
`sizes_to_graph`: insertion-ordered node list (unique keys, Python dict
semantics), insertion-ordered duplicate-free edge list, and the counters
`total_size` / `total_descendants`. -/
structure GState where
  nodes : List (FPath × NodeData)
  edges : List (FPath × FPath)
  total_size : Nat
  total_descendants : Nat
deriving DecidableEq, Repr, Inhabited

/-- `ROOT = Path(".")`. -/
def ROOT : FPath := []

/-- Dictionary lookup in the node list (`g.nodes[p]`, `None`-free). -/
def lookupND : List (FPath × NodeData) → FPath → Option NodeData
  | [], _ => none
  | (q, d) :: rest, p => if q = p then some d else lookupND rest p

/-- Dictionary update: overwrite the value at an existing key in place,
else append (Python dict insertion semantics). -/
def setND : List (FPath × NodeData) → FPath → NodeData → List (FPath × NodeData)
  | [], p, d => [(p, d)]
  | (q, d0) :: rest, p, d => if q = p then (p, d) :: rest else (q, d0) :: setND rest p d

/-- `p in g` (node membership). -/
def hasNode (g : GState) (p : FPath) : Bool := (lookupND g.nodes p).isSome

/-- `g.add_node(p, size=sz, descendants=0)`: sets both attributes,
overwriting them if the node already exists. -/
def addNodeRec (g : GState) (p : FPath) (sz : Nat) : GState :=
  { g with nodes := setND g.nodes p ⟨some sz, some 0⟩ }

/-- Create a node with an empty attribute dictionary if absent
(this is what `nx.add_edge` does to unknown endpoints). -/
def ensureNode (g : GState) (p : FPath) : GState :=
  if hasNode g p then g else { g with nodes := g.nodes ++ [(p, ⟨none, none⟩)] }

/-- `g.add_edge(p, q)`: make sure both endpoints exist, then record the
edge once. -/
def addEdge (g : GState) (p q : FPath) : GState :=
  let g1 := ensureNode (ensureNode g p) q
  if (p, q) ∈ g1.edges then g1 else { g1 with edges := g1.edges ++ [(p, q)] }

/-- `g.successors(p)` in adjacency insertion order. -/
def successors (g : GState) (p : FPath) : List FPath :=
  (g.edges.filter (fun e => e.1 == p)).map (fun e => e.2)

/-- `Path.parents`: ancestors from nearest to farthest, ending with
`Path(".") = []`.  For example `parentsList ["a","b"] = [["a"], []]`. -/
def parentsList (p : FPath) : List FPath :=
  ((List.range p.length).reverse).map (fun k => p.take k)

/-- The `for parent in path.parents: ...` loop of `sizes_to_graph`:
check presence, add the parent→child edge, stop at the first
already-present ancestor, count each newly created ancestor. -/
def ancestorLoop : GState → FPath → List FPath → GState
  | g, _, [] => g
  | g, child, parent :: ps =>
    let pin := hasNode g parent
    let g1 := addEdge g parent child
    if pin then g1
    else ancestorLoop { g1 with total_descendants := g1.total_descendants + 1 } parent ps

/-- One iteration of the manifest-reading loop of `sizes_to_graph`:
add the leaf node with its attributes, bump the totals, then walk the
ancestor chain. -/
def addRecord (g : GState) (r : FPath × Nat) : GState :=
  let g1 := addNodeRec g r.1 r.2
  let g2 := { g1 with total_size := g1.total_size + r.2,
                      total_descendants := g1.total_descendants + 1 }
  ancestorLoop g2 r.1 (parentsList r.1)

/-- The empty `nx.OrderedDiGraph` with zeroed totals. -/
def emptyG : GState := ⟨[], [], 0, 0⟩

/-- `sizes_to_graph`: fold the manifest records into the graph.
(The tab-separated line parsing is outside the modelled core; records
arrive already split into path and size.) -/
def sizes_to_graph (M : Manifest) : GState := M.foldl addRecord emptyG

/-- `g.graph["total_size"]`. -/
def graph_total_size (g : GState) : Nat := g.total_size

/-- `g.graph["total_descendants"] = total_descendants - 1` (a Python
int, hence `Int`: it is `-1` on an empty manifest). -/
def graph_total_descendants (g : GState) : Int := (g.total_descendants : Int) - 1

/-- The node keys of the graph, in insertion order. -/
def keysOf (g : GState) : List FPath := g.nodes.map (fun x => x.1)

/-- Cache the computed pair on the node: `data["size"] = s;
data["descendants"] = d`. -/
def cacheND (g : GState) (p : FPath) (s d : Nat) : GState :=
  { g with nodes := setND g.nodes p ⟨some s, some d⟩ }

/-- The `for child in g.successors(node)` summation loop inside
`size_descendants`, threading the mutated graph. -/
def sdChildren (sd : GState → FPath → Option (Nat × Nat × GState)) :
    GState → List FPath → Nat → Nat → Option (Nat × Nat × GState)
  | g, [], s, d => some (s, d, g)
  | g, c :: cs, s, d =>
    match sd g c with
    | none => none
    | some (cS, cD, g') => sdChildren sd g' cs (s + cS) (d + 1 + cD)

/-- `size_descendants(g, node)`: return the cached `(size, descendants)`
pair unless `descendants` is unset or `size` is falsy (`None` or `0`);
in the latter case recompute by summing over the children (starting from
`s or 0` / `d or 0`) and cache the result on the node.  Fuel-indexed;
`none` is fuel exhaustion or the `KeyError` of a missing node. -/
def size_descendants : Nat → GState → FPath → Option (Nat × Nat × GState)
  | 0, _, _ => none
  | fuel + 1, g, node =>
    match lookupND g.nodes node with
    | none => none
    | some data =>
      if data.descendants = none ∨ data.size.getD 0 = 0 then
        match sdChildren (fun g' p => size_descendants fuel g' p) g
            (successors g node) (data.size.getD 0) (data.descendants.getD 0) with
        | none => none
        | some (s, d, g') => some (s, d, cacheND g' node s d)
      else
        some (data.size.getD 0, data.descendants.getD 0, g)

/-- `desc / (size / 1024 ** 4)`, over `Rat` (the Python computation is
float true division; only its comparison against the density floor is
observable, and all claims are about the branch structure). -/
def density (size desc : Nat) : Rat := (desc : Rat) / ((size : Rat) / (1024 : Rat) ^ 4)

/-- A Python computation that may raise `ZeroDivisionError`. -/
inductive ZRes (α : Type) where
  | ok : α → ZRes α
  | divZero : ZRes α
deriving DecidableEq, Repr

/-- The `yield_abort_if` closure of `yield_zips`: compute the aggregate,
then `to_yield = size < max_zip_bytes` and
`to_abort = to_yield or (desc / (size / 1024**4)) < max_files_per_TiB`,
with the `or` short-circuiting before the division; a zero aggregate
size that reaches the division raises `ZeroDivisionError`. -/
def yield_abort_if (mz : Nat) (mft : Rat) (sf : Nat) (g : GState) (node : FPath) :
    Option (ZRes ((Bool × Bool) × GState)) :=
  match size_descendants sf g node with
  | none => none
  | some (size, desc, g') =>
    if size < mz then some (.ok ((true, true), g'))
    else if size = 0 then some .divZero
    else some (.ok ((false, decide (density size desc < mft)), g'))

/-- Python-list comparison of two component lists.  Restricted to the
sibling lists actually sorted by `dfs` (children of one node, which
share their full parent prefix), this coincides with `pathlib`'s path
ordering. -/
def pathLtB : FPath → FPath → Bool
  | [], [] => false
  | [], _ :: _ => true
  | _ :: _, [] => false
  | a :: as, b :: bs => if a < b then true else if a = b then pathLtB as bs else false

/-- Non-strict variant of `pathLtB`. -/
def pathLeB (p q : FPath) : Bool := pathLtB p q || p == q

/-- Insert into a descending-sorted list. -/
def insertDesc (p : FPath) : List FPath → List FPath
  | [] => [p]
  | q :: qs => if pathLeB q p then p :: q :: qs else q :: insertDesc p qs

/-- `sorted(paths, reverse=True)` (insertion sort; the sorted lists here
are duplicate-free, so stability is irrelevant). -/
def sortDescPaths : List FPath → List FPath
  | [] => []
  | p :: ps => insertDesc p (sortDescPaths ps)

/-- The `while to_visit:` loop of `dfs`.  The Lean list head is the top
of the Python stack (the end of the `to_visit` list), so
`to_visit.extend(sorted(children, reverse=True))` followed by popping
from the end is pushing `(sortDescPaths children).reverse` onto the
head.  The `pbar.update(node_descendants(g, node) + 1)` in the abort
branch forces another memoized aggregate computation and is modelled. -/
def dfs_loop (mz : Nat) (mft : Rat) (sf : Nat) :
    Nat → GState → List FPath → Option (ZRes (List FPath × GState))
  | 0, _, _ => none
  | _ + 1, g, [] => some (.ok ([], g))
  | fuel + 1, g, node :: rest =>
    match yield_abort_if mz mft sf g node with
    | none => none
    | some .divZero => some .divZero
    | some (.ok ((sy, sab), g1)) =>
      if sab then
        match size_descendants sf g1 node with
        | none => none
        | some (_, _, g2) =>
          match dfs_loop mz mft sf fuel g2 rest with
          | none => none
          | some .divZero => some .divZero
          | some (.ok (out, g3)) => some (.ok ((if sy then node :: out else out), g3))
      else
        match dfs_loop mz mft sf fuel g1
            ((sortDescPaths (successors g1 node)).reverse ++ rest) with
        | none => none
        | some .divZero => some .divZero
        | some (.ok (out, g3)) => some (.ok ((if sy then node :: out else out), g3))

/-- `dfs(g, node, yield_abort_if, progress)` as called by `yield_zips`:
the `tqdm` total forces `node_descendants(g, node)` (one aggregate
computation over the whole subtree) before the loop starts. -/
def dfs (mz : Nat) (mft : Rat) (sf lf : Nat) (g : GState) (node : FPath) :
    Option (ZRes (List FPath × GState)) :=
  match size_descendants sf g node with
  | none => none
  | some (_, _, g1) => dfs_loop mz mft sf lf g1 [node]

/-- `yield_zips(g, max_zip_bytes, max_files_per_TiB)`: re-yields the
`dfs` stream unchanged (the archive statistics it accumulates are only
logged, never returned). -/
def yield_zips (g : GState) (mz : Nat) (mft : Rat) (sf lf : Nat) :
    Option (ZRes (List FPath × GState)) :=
  dfs mz mft sf lf g ROOT

/-- Drop the final graph state from a selector result (the observable
output stream). -/
def outOnly : Option (ZRes (List FPath × GState)) → Option (ZRes (List FPath))
  | none => none
  | some .divZero => some .divZero
  | some (.ok (out, _)) => some (.ok out)

/-- Extract the final graph state from a selector result. -/
def stateAfter : Option (ZRes (List FPath × GState)) → GState
  | some (.ok (_, g)) => g
  | _ => default

/-- A well-formed manifest: each record path is a real file path (not
the root sentinel), no two records name the same path, and no record
path is an ancestor of another record path (a file is never also a
directory). -/
def validManifest (M : Manifest) : Prop :=
  (∀ r ∈ M, r.1 ≠ []) ∧
    M.Pairwise (fun a b => ¬ a.1 <+: b.1 ∧ ¬ b.1 <+: a.1)

/-- The aggregate size of the subtree at `p`: the summed sizes of the
manifest records at or below `p`. -/
def pureSize (M : Manifest) (p : FPath) : Nat :=
  ((M.filter (fun r => decide (p <+: r.1))).map (fun r => r.2)).sum

/-- The number of strict descendants of `p` among the given node keys. -/
def pureDescK (K : List FPath) (p : FPath) : Nat :=
  K.countP (fun q => decide (p <+: q ∧ q ≠ p))

/-- The aggregate descendant count of the subtree at `p` in the tree
built from `M`. -/
def pureDesc (M : Manifest) (p : FPath) : Nat :=
  pureDescK (keysOf (sizes_to_graph M)) p

/-- The partition selector as a pure function of per-node aggregates
`pS`/`pD` and a children map `chl` (no cache threading).  The bridge
theorems show the stateful `dfs` computes this whenever the thresholds
are sane (`0 < mz`). -/
def dfsPure (mz : Nat) (mft : Rat) (pS pD : FPath → Nat) (chl : FPath → List FPath) :
    Nat → List FPath → Option (List FPath)
  | 0, _ => none
  | _ + 1, [] => some []
  | fuel + 1, node :: rest =>
    let sy : Bool := decide (pS node < mz)
    let sab : Bool := sy || decide (density (pS node) (pD node) < mft)
    if sab then
      match dfsPure mz mft pS pD chl fuel rest with
      | none => none
      | some out => some (if sy then node :: out else out)
    else
      match dfsPure mz mft pS pD chl fuel ((sortDescPaths (chl node)).reverse ++ rest) with
      | none => none
      | some out => some (if sy then node :: out else out)

/-- The children map of the built tree, for instantiating `dfsPure`. -/
def builtChl (M : Manifest) : FPath → List FPath :=
  fun p => successors (sizes_to_graph M) p

/-- Two paths whose subtrees are disjoint: neither is an ancestor-or-self
of the other. -/
def Indep (p q : FPath) : Prop := ¬ p <+: q ∧ ¬ q <+: p

/-- The size attached to `p` by the manifest, if `p` is a record path
(the last record wins, matching repeated `add_node` overwrites; for a
`validManifest` there is at most one). -/
def recSz (M : Manifest) (p : FPath) : Option Nat :=
  (M.reverse.find? (fun r => r.1 == p)).map (fun r => r.2)

/-- The attribute dictionary a node carries right after the build phase
of a well-formed manifest: records have `(size, descendants=0)`,
inferred directories have neither attribute. -/
def freshND (M : Manifest) (p : FPath) : NodeData :=
  match recSz M p with
  | some s => ⟨some s, some 0⟩
  | none => ⟨none, none⟩

/-- Structural facts about `sizes_to_graph M` that hold for every
manifest: the node keys are exactly the prefixes of record paths, keys
and edges are duplicate-free, every edge goes from a path to that path
extended by one component, every non-root key has its parent edge, and
`total_size` sums the record sizes. -/
structure BuiltS (M : Manifest) (g : GState) : Prop where
  mem_keys : ∀ p, p ∈ keysOf g ↔ ∃ r ∈ M, p <+: r.1
  keys_nodup : (keysOf g).Nodup
  edge_shape : ∀ e ∈ g.edges, e.2 ≠ [] ∧ e.1 = e.2.dropLast ∧ e.2 ∈ keysOf g
  edges_nodup : g.edges.Nodup
  edge_complete : ∀ p ∈ keysOf g, p ≠ [] → (p.dropLast, p) ∈ g.edges
  keys_closed : ∀ p ∈ keysOf g, ∀ k, p.take k ∈ keysOf g
  tsize : g.total_size = (M.map (fun r => r.2)).sum

/-- Invariant of the graph state when the ancestor walk for the record
path `c` starts: `c` itself is present, edges are well-shaped and
complete except possibly at `c`, and every key's prefixes are present
except those below `c` on the chain of keys extending `c`. -/
structure WalkInv (g : GState) (c : FPath) : Prop where
  mem : c ∈ keysOf g
  knd : (keysOf g).Nodup
  shape : ∀ e ∈ g.edges, e.2 ≠ [] ∧ e.1 = e.2.dropLast ∧ e.2 ∈ keysOf g
  endup : g.edges.Nodup
  comp : ∀ p ∈ keysOf g, p ≠ [] → p ≠ c → (p.dropLast, p) ∈ g.edges
  chain : ∀ p ∈ keysOf g, ∀ k, p.take k ∈ keysOf g ∨ (p.take k <+: c ∧ c <+: p)

/-- What the ancestor walk for `c` guarantees about the resulting graph
state: the new keys are exactly the missing prefixes of `c` (appended,
once each, and counted by `total_descendants`), edges stay well-shaped
and become complete, all prefixes of `c` are now present, the key set is
prefix-closed, old attribute dictionaries are untouched and new nodes
have empty ones. -/
structure WalkOut (g g' : GState) (c : FPath) : Prop where
  keys_ext : ∃ D, keysOf g' = keysOf g ++ D ∧ (∀ p ∈ D, p <+: c ∧ p ≠ c) ∧
    g'.total_descendants = g.total_descendants + D.length
  knd : (keysOf g').Nodup
  shape : ∀ e ∈ g'.edges, e.2 ≠ [] ∧ e.1 = e.2.dropLast ∧ e.2 ∈ keysOf g'
  endup : g'.edges.Nodup
  comp : ∀ p ∈ keysOf g', p ≠ [] → (p.dropLast, p) ∈ g'.edges
  cover : ∀ p, p <+: c → p ∈ keysOf g'
  tsize : g'.total_size = g.total_size
  closed : ∀ p ∈ keysOf g', ∀ k, p.take k ∈ keysOf g'
  look_old : ∀ p ∈ keysOf g, lookupND g'.nodes p = lookupND g.nodes p
  look_new : ∀ p ∈ keysOf g', p ∉ keysOf g → lookupND g'.nodes p = some ⟨none, none⟩
  emono : ∀ e ∈ g.edges, e ∈ g'.edges

/-- Additional facts holding after building a `validManifest`: the
`total_descendants` counter equals the number of nodes, and every node
carries exactly its fresh attribute dictionary. -/
structure BuiltV (M : Manifest) (g : GState) extends BuiltS M g : Prop where
  tdesc : g.total_descendants = (keysOf g).length
  attrs : ∀ p ∈ keysOf g, lookupND g.nodes p = some (freshND M p)

/-- The cache discipline holding from the first full aggregate
computation on: same nodes and edges as the freshly built graph, every
node's `size` attribute caches its true aggregate size, its
`descendants` attribute is present, and is the true descendant count
whenever the aggregate size is positive (for zero-size subtrees the
re-computation path of `size_descendants` can inflate it). -/
structure AllCached (M : Manifest) (g : GState) : Prop where
  keys_eq : keysOf g = keysOf (sizes_to_graph M)
  edges_eq : g.edges = (sizes_to_graph M).edges
  attr : ∀ p ∈ keysOf g, ∃ nd, lookupND g.nodes p = some nd ∧
    nd.size = some (pureSize M p) ∧ nd.descendants ≠ none ∧
    (0 < pureSize M p → nd.descendants = some (pureDesc M p))

/-- Extract the threaded graph state from a `size_descendants` result
(used to name concrete states in closed instances). -/
def sdStateOf : Option (Nat × Nat × GState) → GState
  | some (_, _, g) => g
  | none => default

/-- Extract the (size, descendants) pair from a `size_descendants`
result, dropping the threaded state. -/
def sdValOf : Option (Nat × Nat × GState) → Option (Nat × Nat)
  | some (s, d, _) => some (s, d)
  | none => none

/-! ## Association-list and graph-operation lemmas -/

theorem lookupND_eq_none_iff (l : List (FPath × NodeData)) (p : FPath) :
    lookupND l p = none ↔ p ∉ l.map Prod.fst := by
  induction l with
  | nil => simp [lookupND]
  | cons hd tl ih =>
    obtain ⟨q, d⟩ := hd
    by_cases h : q = p
    · subst h; simp [lookupND]
    · simp [lookupND, h, ih, Ne.symm h]

theorem lookupND_isSome_iff (l : List (FPath × NodeData)) (p : FPath) :
    (lookupND l p).isSome = true ↔ p ∈ l.map Prod.fst := by
  rw [Option.isSome_iff_ne_none, ne_eq, lookupND_eq_none_iff]
  simp

theorem hasNode_iff (g : GState) (p : FPath) :
    hasNode g p = true ↔ p ∈ keysOf g := by
  rw [hasNode, lookupND_isSome_iff]; rfl

theorem lookupND_mem (l : List (FPath × NodeData)) (p : FPath) (d : NodeData)
    (h : lookupND l p = some d) : (p, d) ∈ l := by
  induction l with
  | nil => simp [lookupND] at h
  | cons hd tl ih =>
    obtain ⟨q, d0⟩ := hd
    by_cases hq : q = p
    · subst hq
      rw [lookupND, if_pos rfl] at h
      cases h
      exact List.mem_cons_self _ _
    · rw [lookupND, if_neg hq] at h
      exact List.mem_cons_of_mem _ (ih h)

theorem lookupND_of_mem_nodup (l : List (FPath × NodeData)) (p : FPath) (d : NodeData)
    (hnd : (l.map Prod.fst).Nodup) (h : (p, d) ∈ l) : lookupND l p = some d := by
  induction l with
  | nil => simp at h
  | cons hd tl ih =>
    obtain ⟨q, d0⟩ := hd
    simp only [List.map_cons, List.nodup_cons] at hnd
    rcases List.mem_cons.mp h with h1 | h1
    · rw [Prod.mk.injEq] at h1
      simp [lookupND, h1.1, h1.2]
    · have hqp : q ≠ p := fun hqq => hnd.1 (List.mem_map.mpr ⟨(p, d), h1, hqq.symm⟩)
      simp [lookupND, hqp, ih hnd.2 h1]

theorem lookupND_setND_self (l : List (FPath × NodeData)) (p : FPath) (d : NodeData) :
    lookupND (setND l p d) p = some d := by
  induction l with
  | nil => simp [setND, lookupND]
  | cons hd tl ih =>
    obtain ⟨q, d0⟩ := hd
    by_cases h : q = p <;> simp [setND, lookupND, h, ih]

theorem lookupND_setND_ne (l : List (FPath × NodeData)) (p q : FPath) (d : NodeData)
    (h : q ≠ p) : lookupND (setND l p d) q = lookupND l q := by
  induction l with
  | nil => simp [setND, lookupND, Ne.symm h]
  | cons hd tl ih =>
    obtain ⟨q0, d0⟩ := hd
    by_cases h0 : q0 = p
    · subst h0
      simp [setND, lookupND, h, Ne.symm h]
    · by_cases h1 : q0 = q
      · subst h1
        simp [setND, lookupND, h0]
      · simp [setND, lookupND, h0, h1, ih]

theorem map_fst_setND_of_mem (l : List (FPath × NodeData)) (p : FPath) (d : NodeData)
    (h : p ∈ l.map Prod.fst) : (setND l p d).map Prod.fst = l.map Prod.fst := by
  induction l with
  | nil => simp at h
  | cons hd tl ih =>
    obtain ⟨q, d0⟩ := hd
    by_cases hq : q = p
    · simp [setND, hq]
    · simp only [List.map_cons, List.mem_cons] at h
      rcases h with h | h
      · exact absurd h.symm hq
      · simp [setND, hq, ih h]

theorem map_fst_setND_of_notMem (l : List (FPath × NodeData)) (p : FPath) (d : NodeData)
    (h : p ∉ l.map Prod.fst) : (setND l p d).map Prod.fst = l.map Prod.fst ++ [p] := by
  induction l with
  | nil => simp [setND]
  | cons hd tl ih =>
    obtain ⟨q, d0⟩ := hd
    simp only [List.map_cons, List.mem_cons] at h
    push_neg at h
    simp [setND, Ne.symm h.1, ih h.2]

theorem lookupND_append (l1 l2 : List (FPath × NodeData)) (p : FPath) :
    lookupND (l1 ++ l2) p =
      match lookupND l1 p with
      | some d => some d
      | none => lookupND l2 p := by
  induction l1 with
  | nil => simp [lookupND]
  | cons hd tl ih =>
    obtain ⟨q, d0⟩ := hd
    by_cases h : q = p <;> simp [lookupND, h, ih]

/-! ## Path-order and sorting lemmas -/

theorem pathLtB_irrefl (p : FPath) : pathLtB p p = false := by
  induction p with
  | nil => rfl
  | cons a as ih => simp [pathLtB, ih]

theorem pathLtB_asymm : ∀ p q : FPath, pathLtB p q = true → pathLtB q p = false
  | [], [], h => by simp [pathLtB] at h
  | [], _ :: _, _ => rfl
  | _ :: _, [], h => by simp [pathLtB] at h
  | a :: as, b :: bs, h => by
    by_cases hab : a < b
    · have hba : ¬ b < a := lt_asymm hab
      have hbne : b ≠ a := ne_of_gt hab
      simp [pathLtB, hba, hbne]
    · by_cases he : a = b
      · subst he
        rw [pathLtB, if_neg hab, if_pos rfl] at h
        simp [pathLtB, hab, pathLtB_asymm as bs h]
      · rw [pathLtB, if_neg hab, if_neg he] at h
        simp at h

theorem pathLtB_trans : ∀ p q r : FPath,
    pathLtB p q = true → pathLtB q r = true → pathLtB p r = true
  | [], _, _, _, _ => by
    cases ‹FPath› with
    | nil =>
      rename_i q h1 h2
      cases q with
      | nil => simpa [pathLtB] using h1
      | cons _ _ => simp [pathLtB] at h2
    | cons _ _ => rfl
  | _ :: _, [], _, h1, _ => by simp [pathLtB] at h1
  | a :: as, b :: bs, r, h1, h2 => by
    cases r with
    | nil => simp [pathLtB] at h2
    | cons c cs =>
      by_cases hab : a < b
      · by_cases hbc : b < c
        · simp [pathLtB, lt_trans hab hbc]
        · by_cases hbce : b = c
          · subst hbce
            simp [pathLtB, hab]
          · rw [pathLtB, if_neg hbc, if_neg hbce] at h2
            simp at h2
      · by_cases habe : a = b
        · subst habe
          rw [pathLtB, if_neg hab, if_pos rfl] at h1
          by_cases hbc : a < c
          · simp [pathLtB, hbc]
          · by_cases hbce : a = c
            · subst hbce
              rw [pathLtB, if_neg hbc, if_pos rfl] at h2
              simp [pathLtB, hbc, pathLtB_trans as bs cs h1 h2]
            · rw [pathLtB, if_neg hbc, if_neg hbce] at h2
              simp at h2
        · rw [pathLtB, if_neg hab, if_neg habe] at h1
          simp at h1

theorem pathLtB_total : ∀ p q : FPath, p ≠ q → pathLtB p q = true ∨ pathLtB q p = true
  | [], [], h => absurd rfl h
  | [], _ :: _, _ => Or.inl rfl
  | _ :: _, [], _ => Or.inr rfl
  | a :: as, b :: bs, h => by
    rcases lt_trichotomy a b with hab | hab | hab
    · left; simp [pathLtB, hab]
    · subst hab
      have hne : as ≠ bs := fun he => h (by rw [he])
      rcases pathLtB_total as bs hne with h1 | h1
      · left; simp [pathLtB, h1]
      · right; simp [pathLtB, h1]
    · right; simp [pathLtB, hab]

theorem pathLeB_refl (p : FPath) : pathLeB p p = true := by
  simp [pathLeB]

theorem pathLeB_total (p q : FPath) : pathLeB p q = true ∨ pathLeB q p = true := by
  by_cases h : p = q
  · subst h; left; exact pathLeB_refl p
  · rcases pathLtB_total p q h with h1 | h1
    · left; simp [pathLeB, h1]
    · right; simp [pathLeB, h1]

theorem pathLtB_of_leB_of_ne (p q : FPath) (h : pathLeB p q = true) (hne : p ≠ q) :
    pathLtB p q = true := by
  rcases Bool.or_eq_true_iff.mp h with h1 | h1
  · exact h1
  · exact absurd (by simp at h1; exact h1) hne

theorem insertDesc_perm (p : FPath) (l : List FPath) :
    List.Perm (insertDesc p l) (p :: l) := by
  induction l with
  | nil => rfl
  | cons q qs ih =>
    by_cases h : pathLeB q p = true
    · simp [insertDesc, h]
    · rw [insertDesc, if_neg h]
      exact ((ih.cons q).trans (List.Perm.swap p q qs))

theorem sortDescPaths_perm (l : List FPath) :
    List.Perm (sortDescPaths l) l := by
  induction l with
  | nil => rfl
  | cons p ps ih =>
    exact (insertDesc_perm p (sortDescPaths ps)).trans (ih.cons p)

theorem mem_sortDescPaths (l : List FPath) (p : FPath) :
    p ∈ sortDescPaths l ↔ p ∈ l :=
  (sortDescPaths_perm l).mem_iff

theorem insertDesc_pairwise (p : FPath) (l : List FPath)
    (h : l.Pairwise (fun a b => pathLeB b a = true)) :
    (insertDesc p l).Pairwise (fun a b => pathLeB b a = true) := by
  induction l with
  | nil => simp [insertDesc]
  | cons q qs ih =>
    rcases List.pairwise_cons.mp h with ⟨hq, hqs⟩
    by_cases hle : pathLeB q p = true
    · rw [insertDesc, if_pos hle]
      refine List.pairwise_cons.mpr ⟨?_, h⟩
      intro b hb
      rcases List.mem_cons.mp hb with rfl | hb
      · exact hle
      · rcases Bool.or_eq_true_iff.mp hle with h1 | h1
        · have := hq b hb
          rcases Bool.or_eq_true_iff.mp this with h2 | h2
          · simp [pathLeB, pathLtB_trans b q p h2 h1]
          · have : b = q := by simpa using h2
            subst this
            simp [pathLeB, h1]
        · have : q = p := by simpa using h1
          subst this
          exact hq b hb
    · rw [insertDesc, if_neg hle]
      refine List.pairwise_cons.mpr ⟨?_, ih hqs⟩
      intro b hb
      rcases List.mem_cons.mp ((insertDesc_perm p qs).mem_iff.mp hb) with rfl | hb
      · rcases pathLeB_total b q with h1 | h1
        · exact h1
        · exact absurd h1 hle
      · exact hq b hb

theorem sortDescPaths_pairwise (l : List FPath) :
    (sortDescPaths l).Pairwise (fun a b => pathLeB b a = true) := by
  induction l with
  | nil => simp [sortDescPaths]
  | cons p ps ih => exact insertDesc_pairwise p (sortDescPaths ps) ih

theorem sortDescPaths_reverse_pairwise (l : List FPath) :
    ((sortDescPaths l).reverse).Pairwise (fun a b => pathLeB a b = true) := by
  rw [List.pairwise_reverse]
  exact sortDescPaths_pairwise l

theorem sortDescPaths_reverse_pairwise_lt (l : List FPath) (hnd : l.Nodup) :
    ((sortDescPaths l).reverse).Pairwise (fun a b => pathLtB a b = true) := by
  have hnd' : ((sortDescPaths l).reverse).Nodup :=
    (List.nodup_reverse).mpr ((sortDescPaths_perm l).nodup_iff.mpr hnd)
  have hle := sortDescPaths_reverse_pairwise l
  have hand := List.Pairwise.and hle hnd'
  exact hand.imp (fun h => pathLtB_of_leB_of_ne _ _ h.1 h.2)

theorem mem_sortDescPaths_reverse (l : List FPath) (p : FPath) :
    p ∈ (sortDescPaths l).reverse ↔ p ∈ l := by
  rw [List.mem_reverse]
  exact mem_sortDescPaths l p

/-! ## Graph-operation lemmas -/

theorem edges_addNodeRec (g : GState) (p : FPath) (sz : Nat) :
    (addNodeRec g p sz).edges = g.edges := rfl

theorem totals_addNodeRec (g : GState) (p : FPath) (sz : Nat) :
    (addNodeRec g p sz).total_size = g.total_size ∧
      (addNodeRec g p sz).total_descendants = g.total_descendants := ⟨rfl, rfl⟩

theorem keysOf_addNodeRec_of_mem (g : GState) (p : FPath) (sz : Nat)
    (h : p ∈ keysOf g) : keysOf (addNodeRec g p sz) = keysOf g :=
  map_fst_setND_of_mem g.nodes p _ h

theorem keysOf_addNodeRec_of_notMem (g : GState) (p : FPath) (sz : Nat)
    (h : p ∉ keysOf g) : keysOf (addNodeRec g p sz) = keysOf g ++ [p] :=
  map_fst_setND_of_notMem g.nodes p _ h

theorem lookup_addNodeRec_self (g : GState) (p : FPath) (sz : Nat) :
    lookupND (addNodeRec g p sz).nodes p = some ⟨some sz, some 0⟩ :=
  lookupND_setND_self g.nodes p _

theorem lookup_addNodeRec_ne (g : GState) (p q : FPath) (sz : Nat) (h : q ≠ p) :
    lookupND (addNodeRec g p sz).nodes q = lookupND g.nodes q :=
  lookupND_setND_ne g.nodes p q _ h

theorem ensureNode_of_mem (g : GState) (p : FPath) (h : p ∈ keysOf g) :
    ensureNode g p = g := by
  rw [ensureNode, if_pos ((hasNode_iff g p).mpr h)]

theorem keysOf_ensureNode_of_notMem (g : GState) (p : FPath) (h : p ∉ keysOf g) :
    keysOf (ensureNode g p) = keysOf g ++ [p] := by
  rw [ensureNode, if_neg (by rw [hasNode_iff]; exact h)]
  simp [keysOf]

theorem edges_ensureNode (g : GState) (p : FPath) :
    (ensureNode g p).edges = g.edges := by
  rw [ensureNode]; split <;> rfl

theorem totals_ensureNode (g : GState) (p : FPath) :
    (ensureNode g p).total_size = g.total_size ∧
      (ensureNode g p).total_descendants = g.total_descendants := by
  rw [ensureNode]; split <;> exact ⟨rfl, rfl⟩

theorem lookup_ensureNode_of_notMem (g : GState) (p : FPath) (h : p ∉ keysOf g) :
    lookupND (ensureNode g p).nodes p = some ⟨none, none⟩ := by
  rw [ensureNode, if_neg (by rw [hasNode_iff]; exact h)]
  show lookupND (g.nodes ++ [(p, ⟨none, none⟩)]) p = _
  rw [lookupND_append]
  rw [(lookupND_eq_none_iff g.nodes p).mpr h]
  simp [lookupND]

theorem lookup_ensureNode_ne (g : GState) (p q : FPath) (h : q ≠ p) :
    lookupND (ensureNode g p).nodes q = lookupND g.nodes q := by
  rw [ensureNode]
  split
  · rfl
  · show lookupND (g.nodes ++ [(p, ⟨none, none⟩)]) q = _
    rw [lookupND_append]
    cases hl : lookupND g.nodes q with
    | none => simp [lookupND, h, Ne.symm h]
    | some d => rfl

theorem lookup_ensureNode_of_mem (g : GState) (p q : FPath) (hq : q ∈ keysOf g) :
    lookupND (ensureNode g p).nodes q = lookupND g.nodes q := by
  by_cases h : q = p
  · subst h
    rw [ensureNode_of_mem g q hq]
  · exact lookup_ensureNode_ne g p q h

/-- Key set of `addEdge` when the child is already present. -/
theorem keysOf_addEdge (g : GState) (p q : FPath) (hq : q ∈ keysOf g) :
    keysOf (addEdge g p q) =
      keysOf g ++ (if p ∈ keysOf g then [] else [p]) := by
  rw [addEdge]
  by_cases hp : p ∈ keysOf g
  · rw [ensureNode_of_mem g p hp, ensureNode_of_mem g q hq]
    split <;> simp [keysOf, hp]
  · have h1 : keysOf (ensureNode g p) = keysOf g ++ [p] :=
      keysOf_ensureNode_of_notMem g p hp
    have hq1 : q ∈ keysOf (ensureNode g p) := by rw [h1]; exact List.mem_append_left _ hq
    rw [ensureNode_of_mem _ q hq1, if_neg hp]
    split <;> exact h1

theorem edges_addEdge_of_mem (g : GState) (p q : FPath) (h : (p, q) ∈ g.edges) :
    (addEdge g p q).edges = g.edges := by
  rw [addEdge]
  have he : (ensureNode (ensureNode g p) q).edges = g.edges := by
    rw [edges_ensureNode, edges_ensureNode]
  rw [if_pos (by rw [he]; exact h), he]

theorem edges_addEdge_of_notMem (g : GState) (p q : FPath) (h : (p, q) ∉ g.edges) :
    (addEdge g p q).edges = g.edges ++ [(p, q)] := by
  rw [addEdge]
  have he : (ensureNode (ensureNode g p) q).edges = g.edges := by
    rw [edges_ensureNode, edges_ensureNode]
  rw [if_neg (by rw [he]; exact h), he]

theorem mem_edges_addEdge (g : GState) (p q : FPath) (e : FPath × FPath) :
    e ∈ (addEdge g p q).edges ↔ e ∈ g.edges ∨ e = (p, q) := by
  by_cases h : (p, q) ∈ g.edges
  · rw [edges_addEdge_of_mem g p q h]
    constructor
    · exact Or.inl
    · rintro (h1 | rfl)
      · exact h1
      · exact h
  · rw [edges_addEdge_of_notMem g p q h]
    simp

theorem edges_nodup_addEdge (g : GState) (p q : FPath) (h : g.edges.Nodup) :
    (addEdge g p q).edges.Nodup := by
  by_cases hm : (p, q) ∈ g.edges
  · rw [edges_addEdge_of_mem g p q hm]; exact h
  · rw [edges_addEdge_of_notMem g p q hm]
    simp [List.nodup_append, h, hm]

theorem totals_addEdge (g : GState) (p q : FPath) :
    (addEdge g p q).total_size = g.total_size ∧
      (addEdge g p q).total_descendants = g.total_descendants := by
  rw [addEdge]
  have h1 := totals_ensureNode g p
  have h2 := totals_ensureNode (ensureNode g p) q
  split
  · exact ⟨h2.1.trans h1.1, h2.2.trans h1.2⟩
  · exact ⟨h2.1.trans h1.1, h2.2.trans h1.2⟩

theorem lookup_addEdge_of_mem (g : GState) (p q r : FPath) (hr : r ∈ keysOf g) :
    lookupND (addEdge g p q).nodes r = lookupND g.nodes r := by
  rw [addEdge]
  have step1 : lookupND (ensureNode g p).nodes r = lookupND g.nodes r :=
    lookup_ensureNode_of_mem g p r hr
  have hr1 : r ∈ keysOf (ensureNode g p) := by
    by_cases hp : p ∈ keysOf g
    · rw [ensureNode_of_mem g p hp]; exact hr
    · rw [keysOf_ensureNode_of_notMem g p hp]; exact List.mem_append_left _ hr
  have step2 : lookupND (ensureNode (ensureNode g p) q).nodes r =
      lookupND (ensureNode g p).nodes r :=
    lookup_ensureNode_of_mem (ensureNode g p) q r hr1
  split <;> exact step2.trans step1

theorem lookup_addEdge_new_parent (g : GState) (p q : FPath) (hp : p ∉ keysOf g)
    (hq : q ∈ keysOf g) :
    lookupND (addEdge g p q).nodes p = some ⟨none, none⟩ := by
  rw [addEdge]
  have step1 : lookupND (ensureNode g p).nodes p = some ⟨none, none⟩ :=
    lookup_ensureNode_of_notMem g p hp
  have hp1 : p ∈ keysOf (ensureNode g p) := by
    rw [keysOf_ensureNode_of_notMem g p hp]
    exact List.mem_append_right _ (List.mem_singleton.mpr rfl)
  have step2 : lookupND (ensureNode (ensureNode g p) q).nodes p =
      lookupND (ensureNode g p).nodes p :=
    lookup_ensureNode_of_mem (ensureNode g p) q p hp1
  split <;> exact step2.trans step1

/-- Unfolding `Path.parents` one step: the nearest parent first. -/
theorem parentsList_cons (c : FPath) (h : c ≠ []) :
    parentsList c = c.dropLast :: parentsList c.dropLast := by
  obtain ⟨n, hn⟩ : ∃ n, c.length = n + 1 := by
    cases hc : c.length with
    | zero => exact absurd (List.length_eq_zero.mp hc) h
    | succ n => exact ⟨n, rfl⟩
  have hdl : c.dropLast = c.take n := by
    rw [List.dropLast_eq_take, hn]
    simp
  have hdlen : c.dropLast.length = n := by
    rw [List.length_dropLast, hn]
    simp
  rw [parentsList, hn, List.range_succ, List.reverse_append]
  simp only [List.reverse_singleton, List.singleton_append, List.map_cons]
  rw [← hdl]
  congr 1
  rw [parentsList, hdlen]
  refine List.map_congr_left ?_
  intro k hk
  have hk' : k < n := by
    have := List.mem_reverse.mp hk
    exact List.mem_range.mp this
  rw [hdl, List.take_take]
  rw [min_eq_left (Nat.le_of_lt hk')]

/-! ## Prefix helper lemmas -/

theorem length_lt_of_proper_prefix {p c : FPath} (h : p <+: c) (hne : p ≠ c) :
    p.length < c.length := by
  rcases Nat.lt_or_ge p.length c.length with h1 | h1
  · exact h1
  · exact absurd (List.IsPrefix.eq_of_length h (Nat.le_antisymm h.length_le h1)) hne

theorem proper_prefix_dropLast {p c : FPath} (h : p <+: c) (hne : p ≠ c) :
    p <+: c.dropLast := by
  have hlt : p.length < c.length := length_lt_of_proper_prefix h hne
  have hp : p = c.take p.length := List.prefix_iff_eq_take.mp h
  have hq : List.take p.length c = List.take p.length (List.take (c.length - 1) c) := by
    rw [List.take_take, min_eq_left (Nat.le_sub_one_of_lt hlt)]
  rw [List.dropLast_eq_take, hp, hq]
  exact List.take_prefix _ _

theorem mem_of_prefix_closed {K : List FPath} {q : FPath}
    (hq : ∀ k, q.take k ∈ K) {p : FPath} (hp : p <+: q) : p ∈ K := by
  rw [List.prefix_iff_eq_take.mp hp]
  exact hq _

/-! ## The ancestor walk -/

theorem parentsList_nil : parentsList [] = [] := rfl

theorem ancestorLoop_cons (g : GState) (child parent : FPath) (ps : List FPath) :
    ancestorLoop g child (parent :: ps) =
      if hasNode g parent then addEdge g parent child
      else ancestorLoop { addEdge g parent child with
        total_descendants := (addEdge g parent child).total_descendants + 1 } parent ps := rfl

theorem walkOut_refl (g : GState) (hinv : WalkInv g ([] : FPath)) : WalkOut g g [] where
  keys_ext := ⟨[], by simp, by simp, by simp⟩
  knd := hinv.knd
  shape := hinv.shape
  endup := hinv.endup
  comp := fun p hp hne => hinv.comp p hp hne hne
  cover := fun p hp => by
    rw [List.prefix_nil.mp hp]
    exact hinv.mem
  tsize := rfl
  closed := fun p hp k => by
    rcases hinv.chain p hp k with h | ⟨h1, _⟩
    · exact h
    · rw [List.prefix_nil.mp h1]
      exact hinv.mem
  look_old := fun p _ => rfl
  look_new := fun p hp hnp => absurd hp hnp
  emono := fun e he => he

theorem ancestorLoop_spec :
    ∀ n : Nat, ∀ c : FPath, c.length ≤ n → ∀ g : GState, WalkInv g c →
      WalkOut g (ancestorLoop g c (parentsList c)) c := by
  intro n
  induction n with
  | zero =>
    intro c hc g hinv
    have hce : c = [] := List.length_eq_zero.mp (Nat.le_zero.mp hc)
    subst hce
    rw [parentsList_nil]
    exact walkOut_refl g hinv
  | succ n ih =>
    intro c hc g hinv
    by_cases hce : c = []
    · subst hce
      rw [parentsList_nil]
      exact walkOut_refl g hinv
    · have hppre : c.dropLast <+: c := List.dropLast_prefix c
      have hplen : c.dropLast.length < c.length := by
        rw [List.length_dropLast]
        exact Nat.sub_lt (List.length_pos.mpr hce) Nat.one_pos
      have hpne : c.dropLast ≠ c := fun he => absurd (congrArg List.length he) (Nat.ne_of_lt hplen)
      have hparent_eq : c.dropLast = c.dropLast := rfl
      rw [parentsList_cons c hce, ancestorLoop_cons]
      by_cases hpin : c.dropLast ∈ keysOf g
      · -- the parent is already present: add the edge and stop
        rw [if_pos ((hasNode_iff g c.dropLast).mpr hpin)]
        have hkeq : keysOf (addEdge g c.dropLast c) = keysOf g := by
          rw [keysOf_addEdge g c.dropLast c hinv.mem, if_pos hpin, List.append_nil]
        have hpar_closed : ∀ k, c.dropLast.take k ∈ keysOf g := by
          intro k
          rcases hinv.chain c.dropLast hpin k with h | ⟨_, h2⟩
          · exact h
          · exact absurd h2.length_le (not_le.mpr hplen)
        refine ⟨⟨[], by rw [hkeq, List.append_nil], by simp, ?_⟩, ?_, ?_, ?_, ?_, ?_, ?_, ?_, ?_, ?_, ?_⟩
        · rw [(totals_addEdge g c.dropLast c).2]
          simp
        · rw [hkeq]; exact hinv.knd
        · intro e he
          rcases (mem_edges_addEdge g c.dropLast c e).mp he with h | rfl
          · obtain ⟨h1, h2, h3⟩ := hinv.shape e h
            exact ⟨h1, h2, by rw [hkeq]; exact h3⟩
          · exact ⟨hce, rfl, by rw [hkeq]; exact hinv.mem⟩
        · exact edges_nodup_addEdge g c.dropLast c hinv.endup
        · intro p hp hne
          rw [hkeq] at hp
          by_cases hpc : p = c
          · rw [hpc]
            exact (mem_edges_addEdge g c.dropLast c _).mpr (Or.inr rfl)
          · exact (mem_edges_addEdge g c.dropLast c _).mpr (Or.inl (hinv.comp p hp hne hpc))
        · intro p hp
          rw [hkeq]
          by_cases hpc : p = c
          · subst hpc; exact hinv.mem
          · exact mem_of_prefix_closed hpar_closed (proper_prefix_dropLast hp hpc)
        · exact (totals_addEdge g c.dropLast c).1
        · intro p hp k
          rw [hkeq] at hp ⊢
          rcases hinv.chain p hp k with h | ⟨h1, _⟩
          · exact h
          · by_cases hpc : p.take k = c
            · rw [hpc]; exact hinv.mem
            · exact mem_of_prefix_closed hpar_closed (proper_prefix_dropLast h1 hpc)
        · intro p hp
          exact lookup_addEdge_of_mem g c.dropLast c p hp
        · intro p hp hnp
          rw [hkeq] at hp
          exact absurd hp hnp
        · intro e he
          exact (mem_edges_addEdge g c.dropLast c e).mpr (Or.inl he)
      · -- the parent is new: create it, count it, and keep walking
        rw [if_neg (fun hh => hpin ((hasNode_iff g c.dropLast).mp hh))]
        have hkeysA : keysOf (addEdge g c.dropLast c) = keysOf g ++ [c.dropLast] := by
          rw [keysOf_addEdge g c.dropLast c hinv.mem, if_neg hpin]
        set gmid : GState := { addEdge g c.dropLast c with
          total_descendants := (addEdge g c.dropLast c).total_descendants + 1 } with hgmid
        have hmid_nodes : gmid.nodes = (addEdge g c.dropLast c).nodes := rfl
        have hmid_edges : gmid.edges = (addEdge g c.dropLast c).edges := rfl
        have hkeys_mid : keysOf gmid = keysOf g ++ [c.dropLast] := hkeysA
        have hcmem_mid : c ∈ keysOf gmid := by
          rw [hkeys_mid]; exact List.mem_append_left _ hinv.mem
        have hinv_mid : WalkInv gmid c.dropLast := by
          refine ⟨?_, ?_, ?_, ?_, ?_, ?_⟩
          · rw [hkeys_mid]
            exact List.mem_append_right _ (List.mem_singleton.mpr rfl)
          · rw [hkeys_mid, List.nodup_append]
            refine ⟨hinv.knd, List.nodup_singleton _, ?_⟩
            intro a ha hb
            rw [List.mem_singleton] at hb
            subst hb
            exact hpin ha
          · intro e he
            rw [hmid_edges] at he
            rcases (mem_edges_addEdge g c.dropLast c e).mp he with h | rfl
            · obtain ⟨h1, h2, h3⟩ := hinv.shape e h
              exact ⟨h1, h2, by rw [hkeys_mid]; exact List.mem_append_left _ h3⟩
            · exact ⟨hce, rfl, hcmem_mid⟩
          · show (addEdge g c.dropLast c).edges.Nodup
            exact edges_nodup_addEdge g c.dropLast c hinv.endup
          · intro p hp hne hnp
            rw [hkeys_mid] at hp
            rcases List.mem_append.mp hp with hp | hp
            · show (p.dropLast, p) ∈ (addEdge g c.dropLast c).edges
              by_cases hpc : p = c
              · rw [hpc]
                exact (mem_edges_addEdge g c.dropLast c _).mpr (Or.inr rfl)
              · exact (mem_edges_addEdge g c.dropLast c _).mpr (Or.inl (hinv.comp p hp hne hpc))
            · exact absurd (List.mem_singleton.mp hp) hnp
          · intro p hp k
            rw [hkeys_mid] at hp ⊢
            rcases List.mem_append.mp hp with hp | hp
            · rcases hinv.chain p hp k with h | ⟨h1, h2⟩
              · exact Or.inl (List.mem_append_left _ h)
              · by_cases hpc : p.take k = c
                · rw [hpc]
                  exact Or.inl (List.mem_append_left _ hinv.mem)
                · refine Or.inr ⟨proper_prefix_dropLast h1 hpc, hppre.trans h2⟩
            · rw [List.mem_singleton.mp hp]
              exact Or.inr ⟨List.take_prefix _ _, List.prefix_refl _⟩
        have hlen' : c.dropLast.length ≤ n := Nat.lt_succ_iff.mp (Nat.lt_of_lt_of_le hplen hc)
        have hout := ih c.dropLast hlen' gmid hinv_mid
        obtain ⟨D', hD1, hD2, hD3⟩ := hout.keys_ext
        have hkeys_fin : keysOf (ancestorLoop gmid c.dropLast (parentsList c.dropLast)) =
            keysOf g ++ (c.dropLast :: D') := by
          rw [hD1, hkeys_mid, List.append_assoc, List.singleton_append]
        refine ⟨⟨c.dropLast :: D', hkeys_fin, ?_, ?_⟩, hout.knd, hout.shape, hout.endup,
          hout.comp, ?_, ?_, hout.closed, ?_, ?_, ?_⟩
        · intro p hp
          rcases List.mem_cons.mp hp with rfl | hp
          · exact ⟨hppre, hpne⟩
          · obtain ⟨h1, h2⟩ := hD2 p hp
            refine ⟨h1.trans hppre, ?_⟩
            intro hec
            subst hec
            exact absurd (h1.length_le.trans_lt hplen) (lt_irrefl _)
        · rw [hD3]
          show gmid.total_descendants + D'.length = g.total_descendants + (D'.length + 1)
          rw [hgmid]
          show (addEdge g c.dropLast c).total_descendants + 1 + D'.length =
            g.total_descendants + (D'.length + 1)
          rw [(totals_addEdge g c.dropLast c).2]
          omega
        · intro p hp
          by_cases hpc : p = c
          · subst hpc
            rw [hkeys_fin]
            exact List.mem_append_left _ hinv.mem
          · exact hout.cover p (proper_prefix_dropLast hp hpc)
        · rw [hout.tsize]
          show (addEdge g c.dropLast c).total_size = g.total_size
          exact (totals_addEdge g c.dropLast c).1
        · intro p hp
          have hp_mid : p ∈ keysOf gmid := by
            rw [hkeys_mid]; exact List.mem_append_left _ hp
          rw [hout.look_old p hp_mid, hmid_nodes]
          exact lookup_addEdge_of_mem g c.dropLast c p hp
        · intro p hp hnp
          by_cases hpp : p = c.dropLast
          · rw [hpp] at hnp ⊢
            rw [hout.look_old c.dropLast hinv_mid.mem, hmid_nodes]
            exact lookup_addEdge_new_parent g c.dropLast c hnp hinv.mem
          · refine hout.look_new p hp ?_
            rw [hkeys_mid]
            intro hmem
            rcases List.mem_append.mp hmem with h | h
            · exact hnp h
            · exact hpp (List.mem_singleton.mp h)
        · intro e he
          refine hout.emono e ?_
          rw [hmid_edges]
          exact (mem_edges_addEdge g c.dropLast c e).mpr (Or.inl he)

/-! ## The build phase -/

theorem recSz_append_ne (M : Manifest) (r : FPath × Nat) (p : FPath) (h : p ≠ r.1) :
    recSz (M ++ [r]) p = recSz M p := by
  rw [recSz, recSz, List.reverse_append, List.reverse_singleton, List.singleton_append,
    List.find?_cons]
  have : (r.1 == p) = false := by
    rw [beq_eq_false_iff_ne]
    exact Ne.symm h
  rw [this]

theorem recSz_append_self (M : Manifest) (r : FPath × Nat) :
    recSz (M ++ [r]) r.1 = some r.2 := by
  rw [recSz, List.reverse_append, List.reverse_singleton, List.singleton_append,
    List.find?_cons]
  rw [show (r.1 == r.1) = true from beq_self_eq_true r.1]
  rfl

theorem recSz_eq_none (M : Manifest) (p : FPath) (h : ∀ rec ∈ M, rec.1 ≠ p) :
    recSz M p = none := by
  rw [recSz, Option.map_eq_none']
  rw [List.find?_eq_none]
  intro x hx
  simp only [beq_iff_eq]
  exact h x (List.mem_reverse.mp hx)

theorem addRecord_WalkInv (M : Manifest) (r : FPath × Nat) (g : GState)
    (hb : BuiltS M g) :
    WalkInv { addNodeRec g r.1 r.2 with
      total_size := (addNodeRec g r.1 r.2).total_size + r.2,
      total_descendants := (addNodeRec g r.1 r.2).total_descendants + 1 } r.1 := by
  set g1 := addNodeRec g r.1 r.2 with hg1
  have hkeys1 : keysOf g1 = keysOf g ∨ keysOf g1 = keysOf g ++ [r.1] := by
    by_cases h : r.1 ∈ keysOf g
    · exact Or.inl (keysOf_addNodeRec_of_mem g r.1 r.2 h)
    · exact Or.inr (keysOf_addNodeRec_of_notMem g r.1 r.2 h)
  have hmem1 : r.1 ∈ keysOf g1 := by
    by_cases h : r.1 ∈ keysOf g
    · rw [keysOf_addNodeRec_of_mem g r.1 r.2 h]; exact h
    · rw [keysOf_addNodeRec_of_notMem g r.1 r.2 h]
      exact List.mem_append_right _ (List.mem_singleton.mpr rfl)
  have hsub1 : ∀ p, p ∈ keysOf g → p ∈ keysOf g1 := by
    intro p hp
    rcases hkeys1 with h | h <;> rw [h]
    · exact hp
    · exact List.mem_append_left _ hp
  have hold1 : ∀ p, p ∈ keysOf g1 → p = r.1 ∨ p ∈ keysOf g := by
    intro p hp
    rcases hkeys1 with h | h <;> rw [h] at hp
    · exact Or.inr hp
    · rcases List.mem_append.mp hp with h1 | h1
      · exact Or.inr h1
      · exact Or.inl (List.mem_singleton.mp h1)
  refine ⟨hmem1, ?_, ?_, hb.edges_nodup, ?_, ?_⟩
  · show (keysOf g1).Nodup
    by_cases hmem : r.1 ∈ keysOf g
    · rw [keysOf_addNodeRec_of_mem g r.1 r.2 hmem]
      exact hb.keys_nodup
    · rw [keysOf_addNodeRec_of_notMem g r.1 r.2 hmem, List.nodup_append]
      refine ⟨hb.keys_nodup, List.nodup_singleton _, ?_⟩
      intro a ha hb1
      rw [List.mem_singleton] at hb1
      rw [hb1] at ha
      exact hmem ha
  · intro e he
    obtain ⟨h1, h2, h3⟩ := hb.edge_shape e he
    exact ⟨h1, h2, hsub1 _ h3⟩
  · intro p hp hpe hpne
    rcases hold1 p hp with h | h
    · exact absurd h hpne
    · exact hb.edge_complete p h hpe
  · intro p hp k
    rcases hold1 p hp with h | h
    · subst h
      exact Or.inr ⟨List.take_prefix _ _, List.prefix_refl _⟩
    · exact Or.inl (hsub1 _ (hb.keys_closed p h k))

theorem addRecord_BuiltS (M : Manifest) (r : FPath × Nat) (g : GState)
    (hb : BuiltS M g) : BuiltS (M ++ [r]) (addRecord g r) := by
  have hinv := addRecord_WalkInv M r g hb
  have hout := ancestorLoop_spec r.1.length r.1 le_rfl _ hinv
  set g2 : GState := { addNodeRec g r.1 r.2 with
      total_size := (addNodeRec g r.1 r.2).total_size + r.2,
      total_descendants := (addNodeRec g r.1 r.2).total_descendants + 1 } with hg2
  have hgr : addRecord g r = ancestorLoop g2 r.1 (parentsList r.1) := rfl
  obtain ⟨D, hD1, hD2, _⟩ := hout.keys_ext
  have hsub2 : ∀ p, p ∈ keysOf g2 → p ∈ keysOf (addRecord g r) := by
    intro p hp
    rw [hgr, hD1]
    exact List.mem_append_left _ hp
  have hsubg : ∀ p, p ∈ keysOf g → p ∈ keysOf g2 := by
    intro p hp
    show p ∈ keysOf (addNodeRec g r.1 r.2)
    by_cases h : r.1 ∈ keysOf g
    · rw [keysOf_addNodeRec_of_mem g r.1 r.2 h]; exact hp
    · rw [keysOf_addNodeRec_of_notMem g r.1 r.2 h]
      exact List.mem_append_left _ hp
  refine ⟨?_, hgr ▸ hout.knd, hgr ▸ hout.shape, hgr ▸ hout.endup, hgr ▸ hout.comp,
    hgr ▸ hout.closed, ?_⟩
  · intro p
    constructor
    · intro hp
      rw [hgr, hD1] at hp
      rcases List.mem_append.mp hp with hp | hp
      · rcases (by
            by_cases h : r.1 ∈ keysOf g
            · rw [show keysOf g2 = keysOf g from keysOf_addNodeRec_of_mem g r.1 r.2 h] at hp
              exact Or.inr hp
            · rw [show keysOf g2 = keysOf g ++ [r.1] from
                keysOf_addNodeRec_of_notMem g r.1 r.2 h] at hp
              rcases List.mem_append.mp hp with h1 | h1
              · exact Or.inr h1
              · exact Or.inl (List.mem_singleton.mp h1) : p = r.1 ∨ p ∈ keysOf g) with h | h
        · subst h
          exact ⟨r, List.mem_append_right _ (List.mem_singleton.mpr rfl), List.prefix_refl _⟩
        · obtain ⟨rec, hrec, hpre⟩ := (hb.mem_keys p).mp h
          exact ⟨rec, List.mem_append_left _ hrec, hpre⟩
      · obtain ⟨h1, _⟩ := hD2 p hp
        exact ⟨r, List.mem_append_right _ (List.mem_singleton.mpr rfl), h1⟩
    · rintro ⟨rec, hrec, hpre⟩
      rcases List.mem_append.mp hrec with h | h
      · exact hsub2 _ (hsubg _ ((hb.mem_keys p).mpr ⟨rec, h, hpre⟩))
      · rw [List.mem_singleton.mp h] at hpre
        rw [hgr]
        exact hout.cover p hpre
  · rw [hgr, hout.tsize]
    show (addNodeRec g r.1 r.2).total_size + r.2 = _
    rw [(totals_addNodeRec g r.1 r.2).1, hb.tsize]
    simp

theorem BuiltS_empty : BuiltS [] emptyG := by
  refine ⟨?_, ?_, ?_, ?_, ?_, ?_, ?_⟩ <;> simp [keysOf, emptyG]

theorem foldl_BuiltS : ∀ (M2 M1 : Manifest) (g : GState), BuiltS M1 g →
    BuiltS (M1 ++ M2) (M2.foldl addRecord g) := by
  intro M2
  induction M2 with
  | nil =>
    intro M1 g h
    rw [List.append_nil]
    exact h
  | cons r rs ih =>
    intro M1 g h
    have h2 := ih (M1 ++ [r]) (addRecord g r) (addRecord_BuiltS M1 r g h)
    rw [List.append_assoc, List.singleton_append] at h2
    exact h2

theorem sizes_to_graph_BuiltS (M : Manifest) : BuiltS M (sizes_to_graph M) := by
  have h := foldl_BuiltS M [] emptyG BuiltS_empty
  rw [List.nil_append] at h
  exact h

theorem freshND_append_ne (M : Manifest) (r : FPath × Nat) (p : FPath) (h : p ≠ r.1) :
    freshND (M ++ [r]) p = freshND M p := by
  simp only [freshND, recSz_append_ne M r p h]

theorem addRecord_BuiltV (M : Manifest) (r : FPath × Nat) (g : GState)
    (hb : BuiltV M g) (hnotin : r.1 ∉ keysOf g) :
    BuiltV (M ++ [r]) (addRecord g r) := by
  have hbs := addRecord_BuiltS M r g hb.toBuiltS
  have hinv := addRecord_WalkInv M r g hb.toBuiltS
  have hout := ancestorLoop_spec r.1.length r.1 le_rfl _ hinv
  set g2 : GState := { addNodeRec g r.1 r.2 with
      total_size := (addNodeRec g r.1 r.2).total_size + r.2,
      total_descendants := (addNodeRec g r.1 r.2).total_descendants + 1 } with hg2
  have hgr : addRecord g r = ancestorLoop g2 r.1 (parentsList r.1) := rfl
  obtain ⟨D, hD1, hD2, hD3⟩ := hout.keys_ext
  have hkeys2 : keysOf g2 = keysOf g ++ [r.1] :=
    keysOf_addNodeRec_of_notMem g r.1 r.2 hnotin
  have hDnot2 : ∀ p ∈ D, p ∉ keysOf g2 := by
    have hnd := hout.knd
    rw [hD1, List.nodup_append] at hnd
    intro p hp hmem
    exact hnd.2.2 hmem hp
  refine ⟨hbs, ?_, ?_⟩
  · rw [hgr, hD3]
    have hlen : (keysOf (addRecord g r)).length = (keysOf g2).length + D.length := by
      rw [hgr, hD1, List.length_append]
    rw [← hgr, hlen, hkeys2, List.length_append]
    have htd2 : g2.total_descendants = g.total_descendants + 1 := by
      rw [hg2]
      show (addNodeRec g r.1 r.2).total_descendants + 1 = _
      rw [(totals_addNodeRec g r.1 r.2).2]
    rw [htd2, hb.tdesc]
    simp
  · intro p hp
    rw [hgr, hD1] at hp
    rcases List.mem_append.mp hp with hp2 | hpD
    · rw [hkeys2] at hp2
      rcases List.mem_append.mp hp2 with hpg | hpr
      · have hpne : p ≠ r.1 := fun he => hnotin (he ▸ hpg)
        have hl1 : lookupND (addRecord g r).nodes p = lookupND g2.nodes p := by
          rw [hgr]
          exact hout.look_old p (by rw [hkeys2]; exact List.mem_append_left _ hpg)
        have hl2 : lookupND g2.nodes p = lookupND g.nodes p := by
          show lookupND (addNodeRec g r.1 r.2).nodes p = _
          exact lookup_addNodeRec_ne g r.1 p r.2 hpne
        rw [hl1, hl2, hb.attrs p hpg, freshND_append_ne M r p hpne]
      · rw [List.mem_singleton.mp hpr]
        have hl1 : lookupND (addRecord g r).nodes r.1 = lookupND g2.nodes r.1 := by
          rw [hgr]
          exact hout.look_old r.1 (by
            rw [hkeys2]
            exact List.mem_append_right _ (List.mem_singleton.mpr rfl))
        have hl2 : lookupND g2.nodes r.1 = some ⟨some r.2, some 0⟩ := by
          show lookupND (addNodeRec g r.1 r.2).nodes r.1 = _
          exact lookup_addNodeRec_self g r.1 r.2
        rw [hl1, hl2]
        rw [show freshND (M ++ [r]) r.1 = ⟨some r.2, some 0⟩ from by
          simp only [freshND, recSz_append_self M r]]
    · have hpk : p ∈ keysOf (addRecord g r) := by
        rw [hgr, hD1]
        exact List.mem_append_right _ hpD
      have hl1 : lookupND (addRecord g r).nodes p = some ⟨none, none⟩ := by
        rw [hgr]
        exact hout.look_new p (by rw [hD1]; exact List.mem_append_right _ hpD)
          (hDnot2 p hpD)
      rw [hl1]
      have hnorec : recSz (M ++ [r]) p = none := by
        refine recSz_eq_none _ _ ?_
        intro rec hrec he
        rcases List.mem_append.mp hrec with h | h
        · refine hDnot2 p hpD ?_
          rw [hkeys2]
          refine List.mem_append_left _ ?_
          exact (hb.mem_keys p).mpr ⟨rec, h, he ▸ List.prefix_refl _⟩
        · rw [List.mem_singleton.mp h] at he
          exact absurd he.symm (hD2 p hpD).2
      simp only [freshND, hnorec]

theorem BuiltV_empty : BuiltV [] emptyG := by
  refine ⟨BuiltS_empty, ?_, ?_⟩ <;> simp [keysOf, emptyG]

theorem foldl_BuiltV : ∀ (M2 M1 : Manifest) (g : GState), BuiltV M1 g →
    validManifest (M1 ++ M2) → BuiltV (M1 ++ M2) (M2.foldl addRecord g) := by
  intro M2
  induction M2 with
  | nil =>
    intro M1 g h _
    rw [List.append_nil]
    exact h
  | cons r rs ih =>
    intro M1 g h hv
    have hnotin : r.1 ∉ keysOf g := by
      intro hmem
      obtain ⟨rec, hrec, hpre⟩ := (h.mem_keys r.1).mp hmem
      have hpw := hv.2
      rw [List.pairwise_append] at hpw
      have := hpw.2.2 rec hrec r (List.mem_cons_self _ _)
      exact this.2 hpre
    have hasc : (M1 ++ [r]) ++ rs = M1 ++ r :: rs := by simp
    have h2 := ih (M1 ++ [r]) (addRecord g r) (addRecord_BuiltV M1 r g h hnotin)
      (by rw [hasc]; exact hv)
    rw [hasc] at h2
    exact h2

theorem sizes_to_graph_BuiltV (M : Manifest) (h : validManifest M) :
    BuiltV M (sizes_to_graph M) := by
  have hv := foldl_BuiltV M [] emptyG BuiltV_empty (by rw [List.nil_append]; exact h)
  rw [List.nil_append] at hv
  exact hv

/-! ## Successor characterization -/

theorem mem_successors_iff (g : GState) (p c : FPath) :
    c ∈ successors g p ↔ (p, c) ∈ g.edges := by
  rw [successors]
  constructor
  · intro h
    obtain ⟨e, he, hec⟩ := List.mem_map.mp h
    obtain ⟨he1, he2⟩ := List.mem_filter.mp he
    have : e = (p, c) := by
      obtain ⟨e1, e2⟩ := e
      simp only [beq_iff_eq] at he2
      simp only at hec
      rw [he2, hec]
    rw [← this]
    exact he1
  · intro h
    refine List.mem_map.mpr ⟨(p, c), List.mem_filter.mpr ⟨h, by simp⟩, rfl⟩

theorem successors_nodup (g : GState) (p : FPath) (h : g.edges.Nodup) :
    (successors g p).Nodup := by
  refine List.Nodup.map_on ?_ (h.filter _)
  intro x hx y hy hxy
  obtain ⟨_, hx2⟩ := List.mem_filter.mp hx
  obtain ⟨_, hy2⟩ := List.mem_filter.mp hy
  simp only [beq_iff_eq] at hx2 hy2
  obtain ⟨x1, x2⟩ := x
  obtain ⟨y1, y2⟩ := y
  simp only at hx2 hy2 hxy
  rw [hx2, hy2, hxy]

theorem mem_successors_built {M : Manifest} {g : GState} (hb : BuiltS M g)
    (p c : FPath) :
    c ∈ successors g p ↔ c ∈ keysOf g ∧ c ≠ [] ∧ c.dropLast = p := by
  rw [mem_successors_iff]
  constructor
  · intro h
    obtain ⟨h1, h2, h3⟩ := hb.edge_shape (p, c) h
    exact ⟨h3, h1, h2.symm⟩
  · rintro ⟨h1, h2, h3⟩
    have := hb.edge_complete c h1 h2
    rw [h3] at this
    exact this

theorem successors_eq_of_edges_eq (g g' : GState) (h : g.edges = g'.edges) (p : FPath) :
    successors g p = successors g' p := by
  rw [successors, successors, h]

/-! ## Pure aggregate combinatorics -/

theorem sum_map_add {α : Type} (L : List α) (f g : α → Nat) :
    (L.map (fun x => f x + g x)).sum = (L.map f).sum + (L.map g).sum := by
  induction L with
  | nil => simp
  | cons a l ih => simp [ih]; omega

theorem sum_map_swap {α β : Type} (S : List α) (M : List β) (f : α → β → Nat) :
    (S.map (fun c => (M.map (f c)).sum)).sum =
      (M.map (fun r => (S.map (fun c => f c r)).sum)).sum := by
  induction S with
  | nil => simp
  | cons c cs ih =>
    simp only [List.map_cons, List.sum_cons, ih, ← sum_map_add]

theorem sum_ite_unique {α : Type} (S : List α) (P : α → Prop) [DecidablePred P]
    (v : α → Nat) (c0 : α) (hc0 : c0 ∈ S) (hP : P c0)
    (huniq : ∀ c ∈ S, P c → c = c0) (hnd : S.Nodup) :
    (S.map (fun c => if P c then v c else 0)).sum = v c0 := by
  induction S with
  | nil => cases hc0
  | cons a l ih =>
    rcases List.nodup_cons.mp hnd with ⟨hna, hndl⟩
    rcases List.mem_cons.mp hc0 with rfl | hc0'
    · have hz : ∀ c ∈ l, ¬ P c := by
        intro c hc hPc
        exact hna ((huniq c (List.mem_cons_of_mem _ hc) hPc) ▸ hc)
      simp only [List.map_cons, List.sum_cons, if_pos hP]
      have : (l.map (fun c => if P c then v c else 0)).sum = 0 := by
        rw [List.sum_eq_zero]
        intro x hx
        obtain ⟨c, hc, hcx⟩ := List.mem_map.mp hx
        rw [if_neg (hz c hc)] at hcx
        exact hcx.symm
      rw [this]
      omega
    · have hPa : ¬ P a := by
        intro hPa
        exact hna ((huniq a (List.mem_cons_self _ _) hPa).symm ▸ hc0')
      simp only [List.map_cons, List.sum_cons, if_neg hPa, Nat.zero_add]
      exact ih hc0' (fun c hc hPc => huniq c (List.mem_cons_of_mem _ hc) hPc) hndl

theorem sum_ite_none {α : Type} (S : List α) (P : α → Prop) [DecidablePred P]
    (v : α → Nat) (hnone : ∀ c ∈ S, ¬ P c) :
    (S.map (fun c => if P c then v c else 0)).sum = 0 := by
  rw [List.sum_eq_zero]
  intro x hx
  obtain ⟨c, hc, hcx⟩ := List.mem_map.mp hx
  rw [if_neg (hnone c hc)] at hcx
  exact hcx.symm

theorem countP_eq_sum_ite {α : Type} (L : List α) (P : α → Bool) :
    L.countP P = (L.map (fun x => if P x = true then 1 else 0)).sum := by
  induction L with
  | nil => simp
  | cons a l ih =>
    rw [List.countP_cons, List.map_cons, List.sum_cons, ih]
    by_cases h : P a = true <;> simp [h] <;> omega

theorem pureSize_cons (a : FPath × Nat) (l : Manifest) (p : FPath) :
    pureSize (a :: l) p = (if p <+: a.1 then a.2 else 0) + pureSize l p := by
  by_cases h : p <+: a.1
  · simp [pureSize, List.filter_cons, h]
  · simp [pureSize, List.filter_cons, h]

theorem pureSize_eq_sum (M : Manifest) (p : FPath) :
    pureSize M p = (M.map (fun r => if p <+: r.1 then r.2 else 0)).sum := by
  induction M with
  | nil => rfl
  | cons a l ih =>
    rw [pureSize_cons, List.map_cons, List.sum_cons, ih]

/-- Every two records of a well-formed manifest are prefix-incomparable
unless identical. -/
theorem valid_prefix_eq {M : Manifest} (hv : validManifest M) {a b : FPath × Nat}
    (ha : a ∈ M) (hb : b ∈ M) (h : a.1 <+: b.1) : a = b := by
  by_cases heq : a = b
  · exact heq
  · have hr := List.Pairwise.forall (fun x y hxy => ⟨hxy.2, hxy.1⟩) hv.2 ha hb heq
    exact absurd h hr.1

theorem pureSize_of_record {M : Manifest} (hv : validManifest M) {rec : FPath × Nat}
    (h : rec ∈ M) : pureSize M rec.1 = rec.2 := by
  rw [pureSize_eq_sum]
  refine sum_ite_unique M (fun r => rec.1 <+: r.1) (fun r => r.2) rec h
    (List.prefix_refl _) ?_ ?_
  · intro c hc hPc
    exact (valid_prefix_eq hv h hc hPc).symm
  · refine List.Pairwise.imp ?_ hv.2
    intro x y hxy heq
    exact hxy.1 (heq ▸ List.prefix_refl _)

/-- In a well-formed manifest no node strictly below a record path
exists in the tree. -/
theorem no_key_below_record {M : Manifest} (hv : validManifest M) {rec : FPath × Nat}
    (h : rec ∈ M) {q : FPath} (hq : q ∈ keysOf (sizes_to_graph M))
    (hpre : rec.1 <+: q) (hne : q ≠ rec.1) : False := by
  obtain ⟨r', hr', hqr'⟩ := ((sizes_to_graph_BuiltS M).mem_keys q).mp hq
  have hrr' : rec.1 <+: r'.1 := hpre.trans hqr'
  have heq := valid_prefix_eq hv h hr' hrr'
  subst heq
  exact hne (hqr'.eq_of_length (Nat.le_antisymm hqr'.length_le hpre.length_le))

theorem pureDesc_of_record {M : Manifest} (hv : validManifest M) {rec : FPath × Nat}
    (h : rec ∈ M) : pureDesc M rec.1 = 0 := by
  rw [pureDesc, pureDescK, List.countP_eq_zero]
  intro q hq hdec
  rw [decide_eq_true_eq] at hdec
  exact no_key_below_record hv h hq hdec.1 hdec.2

theorem successors_of_record {M : Manifest} (hv : validManifest M) {rec : FPath × Nat}
    (h : rec ∈ M) : successors (sizes_to_graph M) rec.1 = [] := by
  rw [List.eq_nil_iff_forall_not_mem]
  intro c hc
  obtain ⟨h1, h2, h3⟩ := (mem_successors_built (sizes_to_graph_BuiltS M) rec.1 c).mp hc
  refine no_key_below_record hv h h1 ?_ ?_
  · rw [← h3]; exact List.dropLast_prefix c
  · intro he
    have hlen := congrArg List.length h3
    rw [List.length_dropLast, ← he] at hlen
    have hcpos : 0 < c.length := List.length_pos.mpr h2
    omega

/-- The one-step child of a strict descendant. -/
theorem childStep_mem {M : Manifest} {p q : FPath}
    (hq : q ∈ keysOf (sizes_to_graph M)) (hpre : p <+: q) (hne : q ≠ p) :
    q.take (p.length + 1) ∈ successors (sizes_to_graph M) p ∧
      q.take (p.length + 1) <+: q := by
  have hb := sizes_to_graph_BuiltS M
  have hlt : p.length < q.length := length_lt_of_proper_prefix hpre (fun h => hne h.symm)
  have htk : q.take (p.length + 1) <+: q := List.take_prefix _ _
  have hlen : (q.take (p.length + 1)).length = p.length + 1 := by
    rw [List.length_take]
    omega
  have hmem : q.take (p.length + 1) ∈ keysOf (sizes_to_graph M) :=
    hb.keys_closed q hq _
  have hdl : (q.take (p.length + 1)).dropLast = p := by
    rw [List.dropLast_eq_take, hlen, Nat.add_sub_cancel, List.take_take,
      min_eq_left (Nat.le_succ _), ← List.prefix_iff_eq_take.mp hpre]
  refine ⟨(mem_successors_built hb p _).mpr ⟨hmem, ?_, hdl⟩, htk⟩
  intro he
  rw [he] at hlen
  exact absurd hlen.symm (by simp)

theorem childStep_unique {M : Manifest} {p q c : FPath}
    (hc : c ∈ successors (sizes_to_graph M) p) (hcq : c <+: q)
    (hpre : p <+: q) (hne : q ≠ p) :
    c = q.take (p.length + 1) := by
  have hb := sizes_to_graph_BuiltS M
  obtain ⟨h1, h2, h3⟩ := (mem_successors_built hb p c).mp hc
  have hclen : c.length = p.length + 1 := by
    have := congrArg List.length h3
    rw [List.length_dropLast] at this
    have hcpos : 0 < c.length := List.length_pos.mpr h2
    omega
  rw [List.prefix_iff_eq_take.mp hcq, hclen]

theorem successor_above {M : Manifest} {p c : FPath}
    (hc : c ∈ successors (sizes_to_graph M) p) : p <+: c ∧ c ≠ p := by
  have hb := sizes_to_graph_BuiltS M
  obtain ⟨h1, h2, h3⟩ := (mem_successors_built hb p c).mp hc
  constructor
  · rw [← h3]; exact List.dropLast_prefix c
  · intro he
    have hlen := congrArg List.length h3
    rw [List.length_dropLast, ← he] at hlen
    have hcpos : 0 < c.length := List.length_pos.mpr h2
    omega

theorem sum_map_one {α : Type} (S : List α) : (S.map (fun _ => (1 : Nat))).sum = S.length := by
  induction S with
  | nil => rfl
  | cons a l ih => simp [ih, Nat.add_comm]

theorem countP_decide_eq_sum {α : Type} (L : List α) (P : α → Prop) [DecidablePred P] :
    L.countP (fun x => decide (P x)) = (L.map (fun x => if P x then 1 else 0)).sum := by
  rw [countP_eq_sum_ite]
  congr 1
  refine List.map_congr_left ?_
  intro x _
  by_cases h : P x <;> simp [h]

/-- The aggregate size of a non-record node splits over its children. -/
theorem pureSize_rec_dir {M : Manifest} (hv : validManifest M) {p : FPath}
    (hnr : ∀ rec ∈ M, rec.1 ≠ p) :
    pureSize M p = ((successors (sizes_to_graph M) p).map (pureSize M)).sum := by
  have hb := sizes_to_graph_BuiltS M
  have hSnd : (successors (sizes_to_graph M) p).Nodup :=
    successors_nodup _ _ hb.edges_nodup
  rw [pureSize_eq_sum]
  have hmapped : (successors (sizes_to_graph M) p).map (pureSize M) =
      (successors (sizes_to_graph M) p).map
        (fun c => (M.map (fun r => if c <+: r.1 then r.2 else 0)).sum) := by
    refine List.map_congr_left ?_
    intro c _
    exact pureSize_eq_sum M c
  rw [hmapped, sum_map_swap]
  congr 1
  refine List.map_congr_left ?_
  intro r hr
  by_cases hpr : p <+: r.1
  · have hrne : r.1 ≠ p := hnr r hr
    have hrk : r.1 ∈ keysOf (sizes_to_graph M) :=
      (hb.mem_keys r.1).mpr ⟨r, hr, List.prefix_refl _⟩
    obtain ⟨hc0S, hc0pre⟩ := childStep_mem hrk hpr hrne
    rw [if_pos hpr]
    exact (sum_ite_unique _ (fun c => c <+: r.1) (fun _ => r.2) _ hc0S hc0pre
      (fun c hc hcp => childStep_unique hc hcp hpr hrne) hSnd).symm
  · rw [if_neg hpr]
    refine (sum_ite_none _ _ _ ?_).symm
    intro c hc hcp
    obtain ⟨hpc, _⟩ := successor_above hc
    exact hpr (hpc.trans hcp)

/-- The descendant count of any node splits over its children. -/
theorem pureDesc_rec {M : Manifest} (hv : validManifest M) {p : FPath} :
    pureDesc M p =
      ((successors (sizes_to_graph M) p).map (fun c => 1 + pureDesc M c)).sum := by
  have hb := sizes_to_graph_BuiltS M
  set K := keysOf (sizes_to_graph M) with hK
  set S := successors (sizes_to_graph M) p with hS
  have hSnd : S.Nodup := successors_nodup _ _ hb.edges_nodup
  have hKnd : K.Nodup := hb.keys_nodup
  have hSK : ∀ c ∈ S, c ∈ K := fun c hc =>
    ((mem_successors_built hb p c).mp hc).1
  have hSlen : ∀ c ∈ S, p <+: c ∧ c ≠ p := fun c hc => successor_above hc
  have hclen : ∀ c ∈ S, c.length = p.length + 1 := by
    intro c hc
    obtain ⟨h1, h2, h3⟩ := (mem_successors_built hb p c).mp hc
    have := congrArg List.length h3
    rw [List.length_dropLast] at this
    have hcpos : 0 < c.length := List.length_pos.mpr h2
    omega
  have hstep1 : pureDesc M p = (K.map (fun q => if p <+: q ∧ q ≠ p then 1 else 0)).sum := by
    rw [pureDesc, pureDescK]
    exact countP_decide_eq_sum K _
  have hpoint : ∀ q ∈ K, (if p <+: q ∧ q ≠ p then 1 else 0 : Nat) =
      (S.map (fun c => if q = c then 1 else 0)).sum +
        (S.map (fun c => if c <+: q ∧ q ≠ c then 1 else 0)).sum := by
    intro q hq
    by_cases hcond : p <+: q ∧ q ≠ p
    · obtain ⟨hc0S, hc0pre⟩ := childStep_mem hq hcond.1 hcond.2
      rw [if_pos hcond]
      by_cases hqS : q ∈ S
      · have hsum1 : (S.map (fun c => if q = c then 1 else 0)).sum = 1 :=
          sum_ite_unique S (fun c => q = c) (fun _ => 1) q hqS rfl
            (fun c _ hqc => hqc.symm) hSnd
        have hsum2 : (S.map (fun c => if c <+: q ∧ q ≠ c then 1 else 0)).sum = 0 := by
          refine sum_ite_none _ _ _ ?_
          rintro c hc ⟨hcq, hqc⟩
          have h1 := hclen c hc
          have h2 := hclen q hqS
          exact hqc (hcq.eq_of_length (by omega)).symm
        rw [hsum1, hsum2]
      · have hsum1 : (S.map (fun c => if q = c then 1 else 0)).sum = 0 := by
          refine sum_ite_none _ _ _ ?_
          intro c hc hqc
          exact hqS (hqc ▸ hc)
        have hsum2 : (S.map (fun c => if c <+: q ∧ q ≠ c then 1 else 0)).sum = 1 := by
          refine sum_ite_unique S (fun c => c <+: q ∧ q ≠ c) (fun _ => 1) _ hc0S
            ⟨hc0pre, fun hqc0 => hqS (hqc0 ▸ hc0S)⟩ ?_ hSnd
          rintro c hc ⟨hcq, _⟩
          exact childStep_unique hc hcq hcond.1 hcond.2
        rw [hsum1, hsum2]
    · rw [if_neg hcond]
      have hsum1 : (S.map (fun c => if q = c then 1 else 0)).sum = 0 := by
        refine sum_ite_none _ _ _ ?_
        intro c hc hqc
        subst hqc
        obtain ⟨h1, h2⟩ := hSlen q hc
        exact hcond ⟨h1, h2⟩
      have hsum2 : (S.map (fun c => if c <+: q ∧ q ≠ c then 1 else 0)).sum = 0 := by
        refine sum_ite_none _ _ _ ?_
        rintro c hc ⟨hcq, hqc⟩
        obtain ⟨h1, h2⟩ := hSlen c hc
        refine hcond ⟨h1.trans hcq, ?_⟩
        intro hqp
        have hl1 := hclen c hc
        have hl2 := hcq.length_le
        rw [hqp] at hl2
        omega
      rw [hsum1, hsum2]
  have hstep2 : pureDesc M p =
      ((K.map (fun q => (S.map (fun c => if q = c then 1 else 0)).sum)).sum +
        (K.map (fun q => (S.map (fun c => if c <+: q ∧ q ≠ c then 1 else 0)).sum)).sum) := by
    rw [hstep1, ← sum_map_add]
    congr 1
    exact List.map_congr_left hpoint
  rw [hstep2]
  have hswap1 : (K.map (fun q => (S.map (fun c => if q = c then 1 else 0)).sum)).sum =
      (S.map (fun c => (K.map (fun q => if q = c then 1 else 0)).sum)).sum :=
    (sum_map_swap K S (fun q c => if q = c then 1 else 0)).symm ▸
      (sum_map_swap K S (fun q c => if q = c then 1 else 0))
  have hswap2 : (K.map (fun q => (S.map (fun c => if c <+: q ∧ q ≠ c then 1 else 0)).sum)).sum =
      (S.map (fun c => (K.map (fun q => if c <+: q ∧ q ≠ c then 1 else 0)).sum)).sum :=
    sum_map_swap K S (fun q c => if c <+: q ∧ q ≠ c then 1 else 0)
  rw [hswap1, hswap2]
  have hper1 : (S.map (fun c => (K.map (fun q => if q = c then 1 else 0)).sum)).sum =
      (S.map (fun _ => (1 : Nat))).sum := by
    congr 1
    refine List.map_congr_left ?_
    intro c hc
    exact sum_ite_unique K (fun q => q = c) (fun _ => 1) c (hSK c hc) rfl
      (fun q _ hqc => hqc) hKnd
  have hper2 : (S.map (fun c => (K.map (fun q => if c <+: q ∧ q ≠ c then 1 else 0)).sum)).sum =
      (S.map (fun c => pureDesc M c)).sum := by
    congr 1
    refine List.map_congr_left ?_
    intro c _
    rw [pureDesc, pureDescK, countP_decide_eq_sum]
  rw [hper1, hper2, sum_map_one, ← sum_map_one S, ← sum_map_add]

theorem pureSize_zero_succ {M : Manifest} (hv : validManifest M) {p : FPath}
    (h0 : pureSize M p = 0) {c : FPath}
    (hc : c ∈ successors (sizes_to_graph M) p) : pureSize M c = 0 := by
  by_cases hrec : ∃ rec ∈ M, rec.1 = p
  · obtain ⟨rec, hrecM, hrecp⟩ := hrec
    have := successors_of_record hv hrecM
    rw [hrecp] at this
    rw [this] at hc
    cases hc
  · push_neg at hrec
    have hrc := pureSize_rec_dir hv hrec
    rw [h0] at hrc
    have := List.sum_eq_zero_iff.mp hrc.symm
    exact this _ (List.mem_map.mpr ⟨c, hc, rfl⟩)

/-! ## Aggregator lemmas -/

theorem keysOf_cacheND (g : GState) (p : FPath) (s d : Nat) (h : p ∈ keysOf g) :
    keysOf (cacheND g p s d) = keysOf g :=
  map_fst_setND_of_mem g.nodes p _ h

theorem edges_cacheND (g : GState) (p : FPath) (s d : Nat) :
    (cacheND g p s d).edges = g.edges := rfl

theorem totals_cacheND (g : GState) (p : FPath) (s d : Nat) :
    (cacheND g p s d).total_size = g.total_size ∧
      (cacheND g p s d).total_descendants = g.total_descendants := ⟨rfl, rfl⟩

theorem lookup_cacheND_self (g : GState) (p : FPath) (s d : Nat) :
    lookupND (cacheND g p s d).nodes p = some ⟨some s, some d⟩ :=
  lookupND_setND_self g.nodes p _

theorem lookup_cacheND_ne (g : GState) (p q : FPath) (s d : Nat) (h : q ≠ p) :
    lookupND (cacheND g p s d).nodes q = lookupND g.nodes q :=
  lookupND_setND_ne g.nodes p q _ h

theorem recSz_some_mem (M : Manifest) (p : FPath) (sz : Nat) (h : recSz M p = some sz) :
    ∃ rec ∈ M, rec.1 = p ∧ rec.2 = sz := by
  rw [recSz] at h
  obtain ⟨rec, hfind, hsz⟩ := Option.map_eq_some'.mp h
  refine ⟨rec, List.mem_reverse.mp (List.mem_of_find?_eq_some hfind), ?_, hsz⟩
  have := List.find?_some hfind
  rwa [beq_iff_eq] at this

theorem recSz_none_forall (M : Manifest) (p : FPath) (h : recSz M p = none) :
    ∀ rec ∈ M, rec.1 ≠ p := by
  rw [recSz, Option.map_eq_none'] at h
  intro rec hrec
  have := List.find?_eq_none.mp h rec (List.mem_reverse.mpr hrec)
  rwa [beq_iff_eq] at this

theorem sd_zero (g : GState) (p : FPath) : size_descendants 0 g p = none := rfl

theorem sd_succ_lookup_none (f : Nat) (g : GState) (node : FPath)
    (hl : lookupND g.nodes node = none) : size_descendants (f + 1) g node = none := by
  rw [size_descendants, hl]

theorem sd_succ_cached (f : Nat) (g : GState) (node : FPath) (data : NodeData)
    (hl : lookupND g.nodes node = some data) (h1 : data.descendants ≠ none)
    (h2 : data.size.getD 0 ≠ 0) :
    size_descendants (f + 1) g node =
      some (data.size.getD 0, data.descendants.getD 0, g) := by
  have hcond : ¬ (data.descendants = none ∨ data.size.getD 0 = 0) := by
    push_neg
    exact ⟨h1, h2⟩
  simp only [size_descendants, hl]
  rw [if_neg hcond]

theorem sd_succ_recompute (f : Nat) (g : GState) (node : FPath) (data : NodeData)
    (hl : lookupND g.nodes node = some data)
    (hcond : data.descendants = none ∨ data.size.getD 0 = 0) :
    size_descendants (f + 1) g node =
      match sdChildren (fun g' p' => size_descendants f g' p') g
          (successors g node) (data.size.getD 0) (data.descendants.getD 0) with
      | none => none
      | some (s, d, g') => some (s, d, cacheND g' node s d) := by
  simp only [size_descendants, hl]
  rw [if_pos hcond]

theorem sd_some_mem (f : Nat) (g : GState) (p : FPath) (r : Nat × Nat × GState)
    (h : size_descendants f g p = some r) : p ∈ keysOf g := by
  cases f with
  | zero => rw [sd_zero] at h; cases h
  | succ f =>
    cases hl : lookupND g.nodes p with
    | none => rw [sd_succ_lookup_none f g p hl] at h; cases h
    | some data =>
      exact (lookupND_isSome_iff g.nodes p).mp (by rw [hl]; rfl)

theorem successors_pairwise_indep {M : Manifest} (p : FPath) :
    (successors (sizes_to_graph M) p).Pairwise Indep := by
  have hb := sizes_to_graph_BuiltS M
  have hnd := successors_nodup (sizes_to_graph M) p hb.edges_nodup
  refine List.Pairwise.imp_of_mem ?_ hnd
  intro a b ha hb2 hne
  have hla : a.length = p.length + 1 := by
    obtain ⟨h1, h2, h3⟩ := (mem_successors_built hb p a).mp ha
    have := congrArg List.length h3
    rw [List.length_dropLast] at this
    have := List.length_pos.mpr h2
    omega
  have hlb : b.length = p.length + 1 := by
    obtain ⟨h1, h2, h3⟩ := (mem_successors_built hb p b).mp hb2
    have := congrArg List.length h3
    rw [List.length_dropLast] at this
    have := List.length_pos.mpr h2
    omega
  constructor
  · intro hab
    exact hne (hab.eq_of_length (by omega))
  · intro hba
    exact hne (hba.eq_of_length (by omega)).symm

/-- The first full aggregate computation over a freshly built subtree:
it returns the true aggregates, caches them on every node of the
subtree, and touches nothing outside the subtree. -/
theorem sd_pass1 :
    ∀ (f : Nat) (M : Manifest), validManifest M →
    ∀ (g : GState) (p : FPath),
      keysOf g = keysOf (sizes_to_graph M) →
      g.edges = (sizes_to_graph M).edges →
      (∀ q ∈ keysOf g, p <+: q → lookupND g.nodes q = some (freshND M q)) →
      ∀ r : Nat × Nat × GState, size_descendants f g p = some r →
      r.1 = pureSize M p ∧ r.2.1 = pureDesc M p ∧
      keysOf r.2.2 = keysOf g ∧ r.2.2.edges = g.edges ∧
      (∀ q, ¬ p <+: q → lookupND r.2.2.nodes q = lookupND g.nodes q) ∧
      (∀ q ∈ keysOf g, p <+: q → lookupND r.2.2.nodes q =
        some ⟨some (pureSize M q), some (pureDesc M q)⟩) := by
  intro f
  induction f with
  | zero =>
    intro M hv g p _ _ _ r hr
    rw [sd_zero] at hr
    cases hr
  | succ f ih =>
    intro M hv g p hkeys hedges hfresh r hr
    have hpk : p ∈ keysOf g := sd_some_mem _ _ _ _ hr
    have hl : lookupND g.nodes p = some (freshND M p) := hfresh p hpk (List.prefix_refl p)
    have hsucc_eq : successors g p = successors (sizes_to_graph M) p :=
      successors_eq_of_edges_eq g _ hedges p
    cases hrs : recSz M p with
    | some sz =>
      obtain ⟨rec, hrecM, hrecp, hrecsz⟩ := recSz_some_mem M p sz hrs
      have hps : pureSize M p = sz := by
        rw [← hrecp, pureSize_of_record hv hrecM, hrecsz]
      have hpd : pureDesc M p = 0 := by
        rw [← hrecp, pureDesc_of_record hv hrecM]
      have hleafs : successors g p = [] := by
        rw [hsucc_eq, ← hrecp]
        exact successors_of_record hv hrecM
      have hdata : freshND M p = ⟨some sz, some 0⟩ := by
        simp [freshND, hrs]
      have honly : ∀ q ∈ keysOf g, p <+: q → q = p := by
        intro q hq hpq
        by_contra hne
        refine no_key_below_record hv hrecM ?_ (hrecp ▸ hpq) (by rw [hrecp]; exact hne)
        rw [← hkeys]
        exact hq
      by_cases hsz : sz = 0
      · subst hsz
        rw [sd_succ_recompute f g p ⟨some 0, some 0⟩ (by rw [hl, hdata]) (Or.inr rfl)] at hr
        rw [hleafs] at hr
        simp only [sdChildren] at hr
        simp only [Option.some_inj] at hr
        subst hr
        refine ⟨by simp [hps], by simp [hpd], keysOf_cacheND g p _ _ hpk, rfl, ?_, ?_⟩
        · intro q hq
          exact lookup_cacheND_ne g p q _ _ (fun he => hq (he ▸ List.prefix_refl p))
        · intro q hq hpq
          rw [honly q hq hpq]
          rw [lookup_cacheND_self, hps, hpd]
          rfl
      · rw [sd_succ_cached f g p ⟨some sz, some 0⟩ (by rw [hl, hdata]) (by simp)
          (by simpa using hsz)] at hr
        simp only [Option.some_inj] at hr
        subst hr
        refine ⟨by simp [hps], by simp [hpd], rfl, rfl, fun q _ => rfl, ?_⟩
        intro q hq hpq
        rw [honly q hq hpq, hl, hdata, hps, hpd]
    | none =>
      have hnr : ∀ rec ∈ M, rec.1 ≠ p := recSz_none_forall M p hrs
      have hdata : freshND M p = ⟨none, none⟩ := by
        simp [freshND, hrs]
      rw [sd_succ_recompute f g p ⟨none, none⟩ (by rw [hl, hdata]) (Or.inl rfl)] at hr
      have hr9 : (match sdChildren (fun g' p' => size_descendants f g' p') g
          (successors g p) 0 0 with
        | none => none
        | some (s, d, g') => some (s, d, cacheND g' p s d)) = some r := hr
      -- the generic children-folding lemma
      have inner : ∀ (cs : List FPath) (g2 : GState) (sAcc dAcc : Nat),
          keysOf g2 = keysOf (sizes_to_graph M) →
          g2.edges = (sizes_to_graph M).edges →
          (∀ c ∈ cs, ∀ q ∈ keysOf g2, c <+: q →
            lookupND g2.nodes q = some (freshND M q)) →
          cs.Pairwise Indep →
          ∀ r2 : Nat × Nat × GState,
            sdChildren (fun g' p' => size_descendants f g' p') g2 cs sAcc dAcc = some r2 →
          r2.1 = sAcc + (cs.map (pureSize M)).sum ∧
          r2.2.1 = dAcc + (cs.map (fun c => 1 + pureDesc M c)).sum ∧
          keysOf r2.2.2 = keysOf g2 ∧ r2.2.2.edges = g2.edges ∧
          (∀ q, (∀ c ∈ cs, ¬ c <+: q) → lookupND r2.2.2.nodes q = lookupND g2.nodes q) ∧
          (∀ q ∈ keysOf g2, ∀ c ∈ cs, c <+: q →
            lookupND r2.2.2.nodes q = some ⟨some (pureSize M q), some (pureDesc M q)⟩) := by
        intro cs
        induction cs with
        | nil =>
          intro g2 sAcc dAcc hk he _ _ r2 hr2
          simp only [sdChildren, Option.some_inj] at hr2
          subst hr2
          exact ⟨by simp, by simp, rfl, rfl, fun q _ => rfl, fun q _ c hc => absurd hc
            (List.not_mem_nil c)⟩
        | cons c cs' ihc =>
          intro g2 sAcc dAcc hk he hfr hpw r2 hr2
          simp only [sdChildren] at hr2
          cases hsd : size_descendants f g2 c with
          | none => rw [hsd] at hr2; cases hr2
          | some rc =>
            rw [hsd] at hr2
            obtain ⟨cS, cD, g3⟩ := rc
            have hchild := ih M hv g2 c hk he
              (fun q hq hcq => hfr c (List.mem_cons_self _ _) q hq hcq) _ hsd
            obtain ⟨hc1, hc2, hc3, hc4, hc5, hc6⟩ := hchild
            simp only at hc1 hc2 hc3 hc4 hc5 hc6
            rcases List.pairwise_cons.mp hpw with ⟨hcind, hpw'⟩
            have hdisj : ∀ c' ∈ cs', ∀ q, c' <+: q → ¬ c <+: q := by
              intro c' hc' q h1 h2
              rcases List.prefix_or_prefix_of_prefix h2 h1 with h | h
              · exact (hcind c' hc').1 h
              · exact (hcind c' hc').2 h
            have hrest := ihc g3 (sAcc + cS) (dAcc + 1 + cD)
              (hc3.trans hk) (hc4.trans he)
              (fun c' hc' q hq hcq => by
                rw [hc5 q (hdisj c' hc' q hcq)]
                exact hfr c' (List.mem_cons_of_mem _ hc') q (by rw [← hc3]; exact hq) hcq)
              hpw' r2 hr2
            obtain ⟨hr1, hr2', hr3, hr4, hr5, hr6⟩ := hrest
            refine ⟨?_, ?_, hr3.trans hc3, hr4.trans hc4, ?_, ?_⟩
            · rw [hr1, hc1, List.map_cons, List.sum_cons]
              omega
            · rw [hr2', hc2, List.map_cons, List.sum_cons]
              omega
            · intro q hq
              rw [hr5 q (fun c' hc' => hq c' (List.mem_cons_of_mem _ hc'))]
              exact hc5 q (hq c (List.mem_cons_self _ _))
            · intro q hq c'' hc'' hcq
              rcases List.mem_cons.mp hc'' with rfl | hc''
              · rw [hr5 q (fun c' hc' h' => hdisj c' hc' q h' hcq)]
                exact hc6 q hq hcq
              · exact hr6 q (by rw [hc3]; exact hq) c'' hc'' hcq
      cases hsd : sdChildren (fun g' p' => size_descendants f g' p') g
          (successors g p) 0 0 with
      | none =>
        rw [hsd] at hr9
        cases hr9
      | some rc =>
        rw [hsd] at hr9
        obtain ⟨s, d, g'⟩ := rc
        simp only [Option.some_inj] at hr9
        subst hr9
        have hinner := inner (successors g p) g 0 0 hkeys hedges
          (fun c hc q hq hcq => hfresh q hq
            ((successor_above (hsucc_eq ▸ hc)).1.trans hcq))
          (hsucc_eq ▸ successors_pairwise_indep p)
          (s, d, g') hsd
        obtain ⟨hs, hd, hk3, he3, hfr3, hdone3⟩ := hinner
        simp only at hs hd hk3 he3 hfr3 hdone3
        have hps : pureSize M p = s := by
          rw [hs, hsucc_eq, Nat.zero_add, ← pureSize_rec_dir hv hnr]
        have hpd : pureDesc M p = d := by
          rw [hd, hsucc_eq, Nat.zero_add, ← pureDesc_rec hv]
        have hppk : p ∈ keysOf g' := by rw [hk3]; exact hpk
        refine ⟨hps.symm, hpd.symm, (keysOf_cacheND g' p s d hppk).trans hk3, he3, ?_, ?_⟩
        · intro q hq
          rw [lookup_cacheND_ne g' p q s d (fun heq => hq (heq ▸ List.prefix_refl p))]
          refine (hfr3 q ?_)
          intro c hc hcq
          exact hq ((successor_above (hsucc_eq ▸ hc)).1.trans hcq)
        · intro q hq hpq
          by_cases hqp : q = p
          · rw [hqp, lookup_cacheND_self, hps, hpd]
          · rw [lookup_cacheND_ne g' p q s d hqp]
            have hqk : q ∈ keysOf (sizes_to_graph M) := by rw [← hkeys]; exact hq
            obtain ⟨hc0, hc0q⟩ := childStep_mem hqk hpq hqp
            exact hdone3 q hq _ (hsucc_eq ▸ hc0) hc0q

/-- Any aggregate query served from an all-cached state returns the true
aggregate size (and the true descendant count whenever the size is
positive) and keeps the state all-cached; only the `descendants`
attributes of zero-size subtrees can be rewritten (inflated). -/
theorem sd_cached :
    ∀ (f : Nat) (M : Manifest), validManifest M →
    ∀ (g : GState) (p : FPath), AllCached M g →
    ∀ r : Nat × Nat × GState, size_descendants f g p = some r →
    r.1 = pureSize M p ∧ (0 < pureSize M p → r.2.1 = pureDesc M p) ∧ AllCached M r.2.2 := by
  intro f
  induction f with
  | zero =>
    intro M hv g p _ r hr
    rw [sd_zero] at hr
    cases hr
  | succ f ih =>
    intro M hv g p hac r hr
    have hpk : p ∈ keysOf g := sd_some_mem _ _ _ _ hr
    obtain ⟨nd, hnd, hnds, hndd, hndp⟩ := hac.attr p hpk
    have hgetD : nd.size.getD 0 = pureSize M p := by rw [hnds]; rfl
    by_cases hpos : 0 < pureSize M p
    · have hdesc : nd.descendants = some (pureDesc M p) := hndp hpos
      rw [sd_succ_cached f g p nd hnd hndd (by rw [hgetD]; omega)] at hr
      simp only [Option.some_inj] at hr
      subst hr
      refine ⟨hgetD, fun _ => ?_, hac⟩
      rw [hdesc]
      rfl
    · have hzero : pureSize M p = 0 := Nat.eq_zero_of_not_pos hpos
      have hcond : nd.descendants = none ∨ nd.size.getD 0 = 0 :=
        Or.inr (by rw [hgetD, hzero])
      rw [sd_succ_recompute f g p nd hnd hcond] at hr
      have inner2 : ∀ (cs : List FPath) (g2 : GState) (sAcc dAcc : Nat),
          AllCached M g2 → (∀ c ∈ cs, pureSize M c = 0) →
          ∀ r2 : Nat × Nat × GState,
            sdChildren (fun g' p' => size_descendants f g' p') g2 cs sAcc dAcc = some r2 →
          r2.1 = sAcc ∧ AllCached M r2.2.2 := by
        intro cs
        induction cs with
        | nil =>
          intro g2 sAcc dAcc hac2 _ r2 hr2
          simp only [sdChildren, Option.some_inj] at hr2
          subst hr2
          exact ⟨rfl, hac2⟩
        | cons c cs' ihc =>
          intro g2 sAcc dAcc hac2 hz r2 hr2
          simp only [sdChildren] at hr2
          cases hsd : size_descendants f g2 c with
          | none => rw [hsd] at hr2; cases hr2
          | some rc =>
            rw [hsd] at hr2
            obtain ⟨cS, cD, g3⟩ := rc
            obtain ⟨hc1, _, hc3⟩ := ih M hv g2 c hac2 _ hsd
            simp only at hc1 hc3
            have hcz : cS = 0 := by rw [hc1, hz c (List.mem_cons_self _ _)]
            have hrest := ihc g3 (sAcc + cS) (dAcc + 1 + cD) hc3
              (fun c' hc' => hz c' (List.mem_cons_of_mem _ hc')) r2 hr2
            exact ⟨by rw [hrest.1, hcz]; omega, hrest.2⟩

      cases hsd : sdChildren (fun g' p' => size_descendants f g' p') g
          (successors g p) (nd.size.getD 0) (nd.descendants.getD 0) with
      | none =>
        rw [hsd] at hr
        cases hr
      | some rc =>
        rw [hsd] at hr
        obtain ⟨s, d, g'⟩ := rc
        simp only [Option.some_inj] at hr
        subst hr
        have hsucc_eq : successors g p = successors (sizes_to_graph M) p :=
          successors_eq_of_edges_eq g _ hac.edges_eq p
        have hinner := inner2 (successors g p) g (nd.size.getD 0) (nd.descendants.getD 0)
          hac (fun c hc => pureSize_zero_succ hv hzero (hsucc_eq ▸ hc)) (s, d, g') hsd
        obtain ⟨hs, hac'⟩ := hinner
        simp only at hs hac'
        have hs0 : s = 0 := by rw [hs, hgetD, hzero]
        have hppk : p ∈ keysOf g' := by rw [hac'.keys_eq, ← hac.keys_eq]; exact hpk
        refine ⟨by rw [hs0, hzero], fun hp0 => absurd hp0 hpos, ?_⟩
        refine ⟨(keysOf_cacheND g' p s d hppk).trans hac'.keys_eq, hac'.edges_eq, ?_⟩
        intro q hq
        rw [keysOf_cacheND g' p s d hppk] at hq
        by_cases hqp : q = p
        · subst hqp
          refine ⟨⟨some s, some d⟩, lookup_cacheND_self g' q s d, ?_, by simp, ?_⟩
          · rw [hs0, hzero]
          · intro hp0
            rw [hzero] at hp0
            exact absurd hp0 (lt_irrefl 0)
        · obtain ⟨nd', h1, h2, h3, h4⟩ := hac'.attr q hq
          exact ⟨nd', (lookup_cacheND_ne g' p q s d hqp).trans h1, h2, h3, h4⟩

/-! ## The selector bridge: stateful `dfs` computes the pure selector -/

theorem pass1_AllCached (M : Manifest) (hv : validManifest M) (f : Nat)
    (r : Nat × Nat × GState)
    (h : size_descendants f (sizes_to_graph M) ROOT = some r) : AllCached M r.2.2 := by
  have hb := sizes_to_graph_BuiltV M hv
  have hp := sd_pass1 f M hv (sizes_to_graph M) ROOT rfl rfl
    (fun q hq _ => hb.attrs q hq) r h
  obtain ⟨_, _, hk, he, _, hdone⟩ := hp
  refine ⟨hk, he, ?_⟩
  intro q hq
  rw [hk] at hq
  have hd := hdone q hq List.nil_prefix
  exact ⟨_, hd, rfl, by simp, fun _ => rfl⟩

theorem yai_eq (mz : Nat) (mft : Rat) (sf : Nat) (g : GState) (node : FPath)
    (s d : Nat) (g1 : GState) (hsd : size_descendants sf g node = some (s, d, g1)) :
    yield_abort_if mz mft sf g node =
      if s < mz then some (.ok ((true, true), g1))
      else if s = 0 then some .divZero
      else some (.ok ((false, decide (density s d < mft)), g1)) := by
  simp only [yield_abort_if, hsd]

theorem dfs_loop_nil (mz : Nat) (mft : Rat) (sf f : Nat) (g : GState) :
    dfs_loop mz mft sf (f + 1) g [] = some (.ok ([], g)) := rfl

theorem dfs_loop_cons (mz : Nat) (mft : Rat) (sf f : Nat) (g : GState)
    (node : FPath) (rest : List FPath) :
    dfs_loop mz mft sf (f + 1) g (node :: rest) =
      match yield_abort_if mz mft sf g node with
      | none => none
      | some .divZero => some .divZero
      | some (.ok ((sy, sab), g1)) =>
        if sab then
          match size_descendants sf g1 node with
          | none => none
          | some (_, _, g2) =>
            match dfs_loop mz mft sf f g2 rest with
            | none => none
            | some .divZero => some .divZero
            | some (.ok (out, g3)) => some (.ok ((if sy then node :: out else out), g3))
        else
          match dfs_loop mz mft sf f g1
              ((sortDescPaths (successors g1 node)).reverse ++ rest) with
          | none => none
          | some .divZero => some .divZero
          | some (.ok (out, g3)) => some (.ok ((if sy then node :: out else out), g3)) := rfl

theorem dfsPure_nil (mz : Nat) (mft : Rat) (pS pD : FPath → Nat) (chl : FPath → List FPath)
    (f : Nat) : dfsPure mz mft pS pD chl (f + 1) [] = some [] := rfl

theorem dfsPure_cons (mz : Nat) (mft : Rat) (pS pD : FPath → Nat) (chl : FPath → List FPath)
    (f : Nat) (node : FPath) (rest : List FPath) :
    dfsPure mz mft pS pD chl (f + 1) (node :: rest) =
      if (decide (pS node < mz) || decide (density (pS node) (pD node) < mft)) then
        match dfsPure mz mft pS pD chl f rest with
        | none => none
        | some out => some (if decide (pS node < mz) then node :: out else out)
      else
        match dfsPure mz mft pS pD chl f ((sortDescPaths (chl node)).reverse ++ rest) with
        | none => none
        | some out => some (if decide (pS node < mz) then node :: out else out) := rfl

theorem dfs_loop_bridge :
    ∀ (lf : Nat) (M : Manifest), validManifest M → ∀ (mz : Nat), 0 < mz →
    ∀ (mft : Rat) (sf : Nat) (g : GState) (stack : List FPath), AllCached M g →
    ∀ r, dfs_loop mz mft sf lf g stack = some r →
    ∃ out g', r = .ok (out, g') ∧ AllCached M g' ∧
      dfsPure mz mft (pureSize M) (pureDesc M) (builtChl M) lf stack = some out := by
  intro lf
  induction lf with
  | zero =>
    intro M hv mz hmz mft sf g stack hac r hr
    cases hr
  | succ lf ih =>
    intro M hv mz hmz mft sf g stack hac r hr
    cases stack with
    | nil =>
      rw [dfs_loop_nil] at hr
      cases hr
      exact ⟨[], g, rfl, hac, rfl⟩
    | cons node rest =>
      rw [dfs_loop_cons] at hr
      cases hsd : size_descendants sf g node with
      | none =>
        have hyai : yield_abort_if mz mft sf g node = none := by
          simp only [yield_abort_if, hsd]
        rw [hyai] at hr
        cases hr
      | some rsd =>
        obtain ⟨s, d, g1⟩ := rsd
        obtain ⟨hs, hd, hac1⟩ := sd_cached sf M hv g node hac _ hsd
        simp only at hs hd hac1
        rw [yai_eq mz mft sf g node s d g1 hsd] at hr
        by_cases hslt : s < mz
        · rw [if_pos hslt] at hr
          have hr2 : (match size_descendants sf g1 node with
              | none => none
              | some (_, _, g2) =>
                match dfs_loop mz mft sf lf g2 rest with
                | none => none
                | some ZRes.divZero => some ZRes.divZero
                | some (ZRes.ok (out, g3)) => some (ZRes.ok (node :: out, g3))) = some r := hr
          cases hsd2 : size_descendants sf g1 node with
          | none => rw [hsd2] at hr2; cases hr2
          | some rsd2 =>
            rw [hsd2] at hr2
            obtain ⟨s2, d2, g2⟩ := rsd2
            obtain ⟨_, _, hac2⟩ := sd_cached sf M hv g1 node hac1 _ hsd2
            simp only at hac2
            have hr3 : (match dfs_loop mz mft sf lf g2 rest with
                | none => none
                | some ZRes.divZero => some ZRes.divZero
                | some (ZRes.ok (out, g3)) => some (ZRes.ok (node :: out, g3))) = some r := hr2
            cases hrec : dfs_loop mz mft sf lf g2 rest with
            | none => rw [hrec] at hr3; cases hr3
            | some rr =>
              rw [hrec] at hr3
              obtain ⟨out', g', hrr, hac', hpure⟩ := ih M hv mz hmz mft sf g2 rest hac2 rr hrec
              subst hrr
              have hr4 : some (ZRes.ok (node :: out', g')) = some r := hr3
              cases hr4
              refine ⟨node :: out', g', rfl, hac', ?_⟩
              rw [dfsPure_cons]
              have hsy : decide (pureSize M node < mz) = true := by
                rw [decide_eq_true_iff, ← hs]
                exact hslt
              rw [hsy, Bool.true_or, if_pos rfl, hpure]
              rfl
        · rw [if_neg hslt] at hr
          have hs0 : s ≠ 0 := by
            intro h0
            rw [h0] at hslt
            exact hslt hmz
          rw [if_neg hs0] at hr
          have hspos : 0 < pureSize M node := by
            rw [← hs]
            exact Nat.pos_of_ne_zero hs0
          have hdp : d = pureDesc M node := hd hspos
          have hsy : decide (pureSize M node < mz) = false := by
            rw [decide_eq_false_iff_not, ← hs]
            exact hslt
          by_cases hdens : density s d < mft
          · have hab : decide (density s d < mft) = true := decide_eq_true hdens
            rw [hab] at hr
            have hr2 : (match size_descendants sf g1 node with
                | none => none
                | some (_, _, g2) =>
                  match dfs_loop mz mft sf lf g2 rest with
                  | none => none
                  | some ZRes.divZero => some ZRes.divZero
                  | some (ZRes.ok (out, g3)) => some (ZRes.ok (out, g3))) = some r := hr
            cases hsd2 : size_descendants sf g1 node with
            | none => rw [hsd2] at hr2; cases hr2
            | some rsd2 =>
              rw [hsd2] at hr2
              obtain ⟨s2, d2, g2⟩ := rsd2
              obtain ⟨_, _, hac2⟩ := sd_cached sf M hv g1 node hac1 _ hsd2
              simp only at hac2
              have hr3 : (match dfs_loop mz mft sf lf g2 rest with
                  | none => none
                  | some ZRes.divZero => some ZRes.divZero
                  | some (ZRes.ok (out, g3)) => some (ZRes.ok (out, g3))) = some r := hr2
              cases hrec : dfs_loop mz mft sf lf g2 rest with
              | none => rw [hrec] at hr3; cases hr3
              | some rr =>
                rw [hrec] at hr3
                obtain ⟨out', g', hrr, hac', hpure⟩ :=
                  ih M hv mz hmz mft sf g2 rest hac2 rr hrec
                subst hrr
                have hr4 : some (ZRes.ok (out', g')) = some r := hr3
                cases hr4
                refine ⟨out', g', rfl, hac', ?_⟩
                rw [dfsPure_cons]
                have habp : decide (density (pureSize M node) (pureDesc M node) < mft) = true := by
                  rw [decide_eq_true_iff, ← hs, ← hdp]
                  exact hdens
                rw [hsy, habp, Bool.false_or, if_pos rfl, hpure]
                rfl
          · have hab : decide (density s d < mft) = false := decide_eq_false hdens
            rw [hab] at hr
            have hsucc1 : successors g1 node = builtChl M node := by
              rw [builtChl]
              exact successors_eq_of_edges_eq g1 _ hac1.edges_eq node
            have hr2 : (match dfs_loop mz mft sf lf g1
                  ((sortDescPaths (successors g1 node)).reverse ++ rest) with
                | none => none
                | some ZRes.divZero => some ZRes.divZero
                | some (ZRes.ok (out, g3)) => some (ZRes.ok (out, g3))) = some r := hr
            cases hrec : dfs_loop mz mft sf lf g1
                ((sortDescPaths (successors g1 node)).reverse ++ rest) with
            | none => rw [hrec] at hr2; cases hr2
            | some rr =>
              rw [hrec] at hr2
              obtain ⟨out', g', hrr, hac', hpure⟩ :=
                ih M hv mz hmz mft sf g1 _ hac1 rr hrec
              subst hrr
              have hr4 : some (ZRes.ok (out', g')) = some r := hr2
              cases hr4
              refine ⟨out', g', rfl, hac', ?_⟩
              rw [dfsPure_cons]
              have habp : decide (density (pureSize M node) (pureDesc M node) < mft) = false := by
                rw [decide_eq_false_iff_not, ← hs, ← hdp]
                exact hdens
              rw [hsy, habp]
              rw [if_neg (by simp), ← hsucc1, hpure]
              rfl

/-! ## Pure selector lemmas -/

theorem indep_symm {p q : FPath} (h : Indep p q) : Indep q p := ⟨h.2, h.1⟩

theorem indep_of_step {node c r : FPath} (hc : c ≠ [] ∧ c.dropLast = node)
    (hir : Indep node r) : Indep c r := by
  have hnc : node <+: c := by rw [← hc.2]; exact List.dropLast_prefix c
  constructor
  · intro hcr
    exact hir.1 (hnc.trans hcr)
  · intro hrc
    rcases List.prefix_or_prefix_of_prefix hrc hnc with h | h
    · exact hir.2 h
    · exact hir.1 h

theorem chl_pairwise_indep {chl : FPath → List FPath}
    (hchl : ∀ p c, c ∈ chl p → c ≠ [] ∧ c.dropLast = p)
    (hchlnd : ∀ p, (chl p).Nodup) (p : FPath) : (chl p).Pairwise Indep := by
  refine List.Pairwise.imp_of_mem ?_ (hchlnd p)
  intro a b ha hb hne
  have hla : a.length = p.length + 1 := by
    obtain ⟨h1, h2⟩ := hchl p a ha
    have := congrArg List.length h2
    rw [List.length_dropLast] at this
    have := List.length_pos.mpr h1
    omega
  have hlb : b.length = p.length + 1 := by
    obtain ⟨h1, h2⟩ := hchl p b hb
    have := congrArg List.length h2
    rw [List.length_dropLast] at this
    have := List.length_pos.mpr h1
    omega
  exact ⟨fun h => hne (h.eq_of_length (by omega)),
    fun h => hne (h.eq_of_length (by omega)).symm⟩

theorem dfsPure_mem (mz : Nat) (mft : Rat) (pS pD : FPath → Nat) (chl : FPath → List FPath)
    (hchl : ∀ p c, c ∈ chl p → c ≠ [] ∧ c.dropLast = p) :
    ∀ (f : Nat) (stack : List FPath) (out : List FPath),
    dfsPure mz mft pS pD chl f stack = some out →
    ∀ x ∈ out, ∃ st ∈ stack, st <+: x := by
  intro f
  induction f with
  | zero => intro stack out h; cases h
  | succ f ih =>
    intro stack out h x hx
    cases stack with
    | nil =>
      rw [dfsPure_nil] at h
      cases h
      cases hx
    | cons node rest =>
      rw [dfsPure_cons] at h
      by_cases hcond : (decide (pS node < mz) ||
          decide (density (pS node) (pD node) < mft)) = true
      · rw [if_pos hcond] at h
        cases hrec : dfsPure mz mft pS pD chl f rest with
        | none => rw [hrec] at h; cases h
        | some out' =>
          rw [hrec] at h
          cases h
          by_cases hsy : decide (pS node < mz) = true
          · rw [hsy] at hx
            rw [if_pos rfl] at hx
            rcases List.mem_cons.mp hx with rfl | hx
            · exact ⟨x, List.mem_cons_self _ _, List.prefix_refl x⟩
            · obtain ⟨st, hst, hpre⟩ := ih rest out' hrec x hx
              exact ⟨st, List.mem_cons_of_mem _ hst, hpre⟩
          · rw [Bool.eq_false_iff.mpr hsy] at hx
            rw [if_neg (by simp)] at hx
            obtain ⟨st, hst, hpre⟩ := ih rest out' hrec x hx
            exact ⟨st, List.mem_cons_of_mem _ hst, hpre⟩
      · rw [if_neg hcond] at h
        cases hrec : dfsPure mz mft pS pD chl f
            ((sortDescPaths (chl node)).reverse ++ rest) with
        | none => rw [hrec] at h; cases h
        | some out' =>
          rw [hrec] at h
          cases h
          have hsy : decide (pS node < mz) = false := by
            cases hd : decide (pS node < mz)
            · rfl
            · rw [hd, Bool.true_or] at hcond
              exact absurd rfl hcond
          rw [hsy] at hx
          rw [if_neg (by simp)] at hx
          obtain ⟨st, hst, hpre⟩ := ih _ out' hrec x hx
          rcases List.mem_append.mp hst with hst | hst
          · have hmem : st ∈ chl node := (mem_sortDescPaths_reverse _ st).mp hst
            obtain ⟨h1, h2⟩ := hchl node st hmem
            have : node <+: st := by rw [← h2]; exact List.dropLast_prefix st
            exact ⟨node, List.mem_cons_self _ _, this.trans hpre⟩
          · exact ⟨st, List.mem_cons_of_mem _ hst, hpre⟩

theorem dfsPure_emit_lt (mz : Nat) (mft : Rat) (pS pD : FPath → Nat)
    (chl : FPath → List FPath) :
    ∀ (f : Nat) (stack : List FPath) (out : List FPath),
    dfsPure mz mft pS pD chl f stack = some out →
    ∀ x ∈ out, pS x < mz := by
  intro f
  induction f with
  | zero => intro stack out h; cases h
  | succ f ih =>
    intro stack out h x hx
    cases stack with
    | nil =>
      rw [dfsPure_nil] at h
      cases h
      cases hx
    | cons node rest =>
      rw [dfsPure_cons] at h
      by_cases hcond : (decide (pS node < mz) ||
          decide (density (pS node) (pD node) < mft)) = true
      · rw [if_pos hcond] at h
        cases hrec : dfsPure mz mft pS pD chl f rest with
        | none => rw [hrec] at h; cases h
        | some out' =>
          rw [hrec] at h
          cases h
          by_cases hsy : decide (pS node < mz) = true
          · rw [hsy, if_pos rfl] at hx
            rcases List.mem_cons.mp hx with rfl | hx
            · exact of_decide_eq_true hsy
            · exact ih rest out' hrec x hx
          · rw [Bool.eq_false_iff.mpr hsy, if_neg (by simp)] at hx
            exact ih rest out' hrec x hx
      · rw [if_neg hcond] at h
        cases hrec : dfsPure mz mft pS pD chl f
            ((sortDescPaths (chl node)).reverse ++ rest) with
        | none => rw [hrec] at h; cases h
        | some out' =>
          rw [hrec] at h
          cases h
          have hsy : decide (pS node < mz) = false := by
            cases hd : decide (pS node < mz)
            · rfl
            · rw [hd, Bool.true_or] at hcond
              exact absurd rfl hcond
          rw [hsy, if_neg (by simp)] at hx
          exact ih _ out' hrec x hx

theorem dfsPure_reach (mz : Nat) (mft : Rat) (pS pD : FPath → Nat)
    (chl : FPath → List FPath) :
    ∀ (f : Nat) (stack : List FPath) (out : List FPath),
    dfsPure mz mft pS pD chl f stack = some out →
    ∀ st ∈ stack, pS st < mz → st ∈ out := by
  intro f
  induction f with
  | zero => intro stack out h; cases h
  | succ f ih =>
    intro stack out h st hst hlt
    cases stack with
    | nil => cases hst
    | cons node rest =>
      rw [dfsPure_cons] at h
      by_cases hcond : (decide (pS node < mz) ||
          decide (density (pS node) (pD node) < mft)) = true
      · rw [if_pos hcond] at h
        cases hrec : dfsPure mz mft pS pD chl f rest with
        | none => rw [hrec] at h; cases h
        | some out' =>
          rw [hrec] at h
          cases h
          rcases List.mem_cons.mp hst with rfl | hst
          · have hsy : decide (pS st < mz) = true := decide_eq_true hlt
            rw [hsy, if_pos rfl]
            exact List.mem_cons_self _ _
          · have hrecmem := ih rest out' hrec st hst hlt
            by_cases hsy : decide (pS node < mz) = true
            · rw [hsy, if_pos rfl]
              exact List.mem_cons_of_mem _ hrecmem
            · rw [Bool.eq_false_iff.mpr hsy, if_neg (by simp)]
              exact hrecmem
      · rw [if_neg hcond] at h
        have hsy : decide (pS node < mz) = false := by
          cases hd : decide (pS node < mz)
          · rfl
          · rw [hd, Bool.true_or] at hcond
            exact absurd rfl hcond
        cases hrec : dfsPure mz mft pS pD chl f
            ((sortDescPaths (chl node)).reverse ++ rest) with
        | none => rw [hrec] at h; cases h
        | some out' =>
          rw [hrec] at h
          cases h
          rw [hsy, if_neg (by simp)]
          rcases List.mem_cons.mp hst with rfl | hst
          · exact absurd (decide_eq_true hlt) (by rw [hsy]; simp)
          · exact ih _ out' hrec st (List.mem_append_right _ hst) hlt

theorem indep_of_ext {node st x : FPath} (h : Indep node st) (hpre : st <+: x) :
    Indep node x := by
  constructor
  · intro hnx
    rcases List.prefix_or_prefix_of_prefix hnx hpre with h1 | h1
    · exact h.1 h1
    · exact h.2 h1
  · intro hxn
    exact h.2 (hpre.trans hxn)

theorem pushed_perm (l : List FPath) : List.Perm ((sortDescPaths l).reverse) l :=
  (List.reverse_perm _).trans (sortDescPaths_perm l)

theorem indep_symmetric : Symmetric Indep := by
  intro a b h
  exact indep_symm h

theorem dfsPure_pairwise (mz : Nat) (mft : Rat) (pS pD : FPath → Nat)
    (chl : FPath → List FPath)
    (hchl : ∀ p c, c ∈ chl p → c ≠ [] ∧ c.dropLast = p)
    (hchlnd : ∀ p, (chl p).Nodup) :
    ∀ (f : Nat) (stack : List FPath) (out : List FPath),
    stack.Pairwise Indep →
    dfsPure mz mft pS pD chl f stack = some out →
    out.Pairwise Indep := by
  intro f
  induction f with
  | zero => intro stack out _ h; cases h
  | succ f ih =>
    intro stack out hinv h
    cases stack with
    | nil =>
      rw [dfsPure_nil] at h
      cases h
      exact List.Pairwise.nil
    | cons node rest =>
      rcases List.pairwise_cons.mp hinv with ⟨hhead, hrest⟩
      rw [dfsPure_cons] at h
      by_cases hcond : (decide (pS node < mz) ||
          decide (density (pS node) (pD node) < mft)) = true
      · rw [if_pos hcond] at h
        cases hrec : dfsPure mz mft pS pD chl f rest with
        | none => rw [hrec] at h; cases h
        | some out' =>
          rw [hrec] at h
          cases h
          have hpw' : out'.Pairwise Indep := ih rest out' hrest hrec
          by_cases hsy : decide (pS node < mz) = true
          · rw [hsy, if_pos rfl]
            refine List.pairwise_cons.mpr ⟨?_, hpw'⟩
            intro x hx
            obtain ⟨st, hst, hpre⟩ :=
              dfsPure_mem mz mft pS pD chl hchl f rest out' hrec x hx
            exact indep_of_ext (hhead st hst) hpre
          · rw [Bool.eq_false_iff.mpr hsy, if_neg (by simp)]
            exact hpw'
      · rw [if_neg hcond] at h
        have hsy : decide (pS node < mz) = false := by
          cases hd : decide (pS node < mz)
          · rfl
          · rw [hd, Bool.true_or] at hcond
            exact absurd rfl hcond
        cases hrec : dfsPure mz mft pS pD chl f
            ((sortDescPaths (chl node)).reverse ++ rest) with
        | none => rw [hrec] at h; cases h
        | some out' =>
          rw [hrec] at h
          cases h
          rw [hsy, if_neg (by simp)]
          refine ih _ out' ?_ hrec
          rw [List.pairwise_append]
          refine ⟨?_, hrest, ?_⟩
          · exact (List.Perm.pairwise_iff (fun h => indep_symmetric h)
              (pushed_perm (chl node))).mpr (chl_pairwise_indep hchl hchlnd node)
          · intro c hc r hr
            exact indep_of_step (hchl node c ((mem_sortDescPaths_reverse _ c).mp hc))
              (hhead r hr)

theorem dfsPure_chain (mz : Nat) (mft : Rat) (pS pD : FPath → Nat)
    (chl : FPath → List FPath) :
    ∀ (f : Nat) (stack : List FPath) (out : List FPath) (p ℓ : FPath),
    dfsPure mz mft pS pD chl f stack = some out →
    p ∈ stack → p <+: ℓ →
    (∀ q, p <+: q → q <+: ℓ → q ≠ ℓ → ℓ.take (q.length + 1) ∈ chl q) →
    (∀ q, p <+: q → q <+: ℓ → q ≠ ℓ →
      ¬ pS q < mz ∧ ¬ density (pS q) (pD q) < mft) →
    pS ℓ < mz → ℓ ∈ out := by
  intro f
  induction f with
  | zero => intro stack out p ℓ h; cases h
  | succ f ih =>
    intro stack out p ℓ h hp hpre hstep hdec hlt
    cases stack with
    | nil => cases hp
    | cons node rest =>
      rw [dfsPure_cons] at h
      rcases List.mem_cons.mp hp with rfl | hp
      · by_cases hpl : p = ℓ
        · subst hpl
          exact dfsPure_reach mz mft pS pD chl (f + 1) (p :: rest) out
            (by rw [dfsPure_cons]; exact h) p (List.mem_cons_self _ _) hlt
        · obtain ⟨hny, hnab⟩ := hdec p (List.prefix_refl p) hpre hpl
          have hcond : (decide (pS p < mz) ||
              decide (density (pS p) (pD p) < mft)) = false := by
            rw [decide_eq_false hny, decide_eq_false hnab]
            rfl
          rw [if_neg (by rw [hcond]; simp)] at h
          cases hrec : dfsPure mz mft pS pD chl f
              ((sortDescPaths (chl p)).reverse ++ rest) with
          | none => rw [hrec] at h; cases h
          | some out' =>
            rw [hrec] at h
            cases h
            have hcmem : ℓ.take (p.length + 1) ∈ chl p :=
              hstep p (List.prefix_refl p) hpre hpl
            have hcstack : ℓ.take (p.length + 1) ∈
                (sortDescPaths (chl p)).reverse ++ rest :=
              List.mem_append_left _ ((mem_sortDescPaths_reverse _ _).mpr hcmem)
            have hcpre : ℓ.take (p.length + 1) <+: ℓ := List.take_prefix _ _
            have hppre : p <+: ℓ.take (p.length + 1) := by
              rw [List.prefix_iff_eq_take, List.take_take, min_eq_left (Nat.le_succ _)]
              exact List.prefix_iff_eq_take.mp hpre
            have hmem := ih _ out' (ℓ.take (p.length + 1)) ℓ hrec hcstack hcpre
              (fun q hq1 hq2 hq3 => hstep q (hppre.trans hq1) hq2 hq3)
              (fun q hq1 hq2 hq3 => hdec q (hppre.trans hq1) hq2 hq3) hlt
            have hsy : decide (pS p < mz) = false := by
              cases hd : decide (pS p < mz)
              · rfl
              · rw [hd, Bool.true_or] at hcond
                simp at hcond
            rw [hsy, if_neg (by simp)]
            exact hmem
      · by_cases hcond : (decide (pS node < mz) ||
            decide (density (pS node) (pD node) < mft)) = true
        · rw [if_pos hcond] at h
          cases hrec : dfsPure mz mft pS pD chl f rest with
          | none => rw [hrec] at h; cases h
          | some out' =>
            rw [hrec] at h
            cases h
            have hmem := ih rest out' p ℓ hrec hp hpre hstep hdec hlt
            by_cases hsy : decide (pS node < mz) = true
            · rw [hsy, if_pos rfl]
              exact List.mem_cons_of_mem _ hmem
            · rw [Bool.eq_false_iff.mpr hsy, if_neg (by simp)]
              exact hmem
        · rw [if_neg hcond] at h
          have hsy : decide (pS node < mz) = false := by
            cases hd : decide (pS node < mz)
            · rfl
            · rw [hd, Bool.true_or] at hcond
              exact absurd rfl hcond
          cases hrec : dfsPure mz mft pS pD chl f
              ((sortDescPaths (chl node)).reverse ++ rest) with
          | none => rw [hrec] at h; cases h
          | some out' =>
            rw [hrec] at h
            cases h
            rw [hsy, if_neg (by simp)]
            exact ih _ out' p ℓ hrec (List.mem_append_right _ hp) hpre hstep hdec hlt

/-- The stack invariant for the ordering proof: distinct stack entries
have disjoint subtrees, and stacked siblings sit in ascending order
(nearer the top = smaller). -/
theorem dfsPure_sib (mz : Nat) (mft : Rat) (pS pD : FPath → Nat)
    (chl : FPath → List FPath)
    (hchl : ∀ p c, c ∈ chl p → c ≠ [] ∧ c.dropLast = p)
    (hchlnd : ∀ p, (chl p).Nodup) :
    ∀ (f : Nat) (stack : List FPath) (out : List FPath),
    stack.Pairwise (fun x y => Indep x y ∧ (x.dropLast = y.dropLast → pathLtB x y = true)) →
    dfsPure mz mft pS pD chl f stack = some out →
    ∀ a b, a ∈ out → b ∈ out → a.dropLast = b.dropLast → pathLtB a b = true →
    List.Sublist [a, b] out := by
  intro f
  induction f with
  | zero => intro stack out _ h; cases h
  | succ f ih =>
    intro stack out hinv h a b ha hb hsib hlt
    cases stack with
    | nil =>
      rw [dfsPure_nil] at h
      cases h
      cases ha
    | cons node rest =>
      rcases List.pairwise_cons.mp hinv with ⟨hhead, hrest⟩
      rw [dfsPure_cons] at h
      by_cases hcond : (decide (pS node < mz) ||
          decide (density (pS node) (pD node) < mft)) = true
      · rw [if_pos hcond] at h
        cases hrec : dfsPure mz mft pS pD chl f rest with
        | none => rw [hrec] at h; cases h
        | some out' =>
          rw [hrec] at h
          cases h
          by_cases hsy : decide (pS node < mz) = true
          · rw [hsy, if_pos rfl] at ha hb ⊢
            have hbnode : b ≠ node := by
              intro hbn
              have hanb : a ≠ b := by
                intro hab
                rw [hab, pathLtB_irrefl] at hlt
                cases hlt
              have ha' : a ∈ out' := by
                rcases List.mem_cons.mp ha with h1 | h1
                · exact absurd (h1.trans hbn.symm) hanb
                · exact h1
              obtain ⟨st, hst, hpre⟩ :=
                dfsPure_mem mz mft pS pD chl hchl f rest out' hrec a ha'
              by_cases hsta : st = a
              · have hh := (hhead st hst).2
                rw [hsta] at hh
                have hlt2 : pathLtB node a = true := by
                  refine hh ?_
                  rw [hbn] at hsib
                  exact hsib.symm
                have hltn : pathLtB a node = true := by
                  rw [← hbn]
                  exact hlt
                have hasym := pathLtB_asymm a node hltn
                rw [hasym] at hlt2
                cases hlt2
              · have hstd : st <+: a.dropLast := proper_prefix_dropLast hpre hsta
                rw [hsib] at hstd
                have hstb : st <+: node := by
                  rw [← hbn]
                  exact hstd.trans (List.dropLast_prefix b)
                exact (hhead st hst).1.2 hstb
            rcases List.mem_cons.mp ha with h1 | ha'
            · have hb' : b ∈ out' := by
                rcases List.mem_cons.mp hb with h2 | h2
                · exact absurd h2 hbnode
                · exact h2
              rw [h1]
              exact List.Sublist.cons₂ node (List.singleton_sublist.mpr hb')
            · have hb' : b ∈ out' := by
                rcases List.mem_cons.mp hb with h2 | h2
                · exact absurd h2 hbnode
                · exact h2
              exact List.Sublist.cons node (ih rest out' hrest hrec a b ha' hb' hsib hlt)
          · rw [Bool.eq_false_iff.mpr hsy, if_neg (by simp)] at ha hb ⊢
            exact ih rest out' hrest hrec a b ha hb hsib hlt
      · rw [if_neg hcond] at h
        have hsy : decide (pS node < mz) = false := by
          cases hd : decide (pS node < mz)
          · rfl
          · rw [hd, Bool.true_or] at hcond
            simp at hcond
        cases hrec : dfsPure mz mft pS pD chl f
            ((sortDescPaths (chl node)).reverse ++ rest) with
        | none => rw [hrec] at h; cases h
        | some out' =>
          rw [hrec] at h
          cases h
          rw [hsy, if_neg (by simp)] at ha hb ⊢
          refine ih _ out' ?_ hrec a b ha hb hsib hlt
          rw [List.pairwise_append]
          refine ⟨?_, hrest, ?_⟩
          · have hpind : ((sortDescPaths (chl node)).reverse).Pairwise Indep :=
              (List.Perm.pairwise_iff (fun h => indep_symmetric h)
                (pushed_perm (chl node))).mpr (chl_pairwise_indep hchl hchlnd node)
            have hplt := sortDescPaths_reverse_pairwise_lt (chl node) (hchlnd node)
            exact (hpind.and hplt).imp (fun hcc => ⟨hcc.1, fun _ => hcc.2⟩)
          · intro c hc r hr
            have hcc := hchl node c ((mem_sortDescPaths_reverse _ c).mp hc)
            refine ⟨indep_of_step hcc (hhead r hr).1, ?_⟩
            intro hdl
            have hnr : node <+: r := by
              rw [← hcc.2, hdl]
              exact List.dropLast_prefix r
            exact absurd hnr (hhead r hr).1.1

theorem builtChl_step (M : Manifest) :
    ∀ p c, c ∈ builtChl M p → c ≠ [] ∧ c.dropLast = p := by
  intro p c hc
  obtain ⟨_, h2, h3⟩ := (mem_successors_built (sizes_to_graph_BuiltS M) p c).mp hc
  exact ⟨h2, h3⟩

theorem builtChl_nodup (M : Manifest) : ∀ p, (builtChl M p).Nodup :=
  fun p => successors_nodup _ p (sizes_to_graph_BuiltS M).edges_nodup

theorem builtChl_keys (M : Manifest) :
    ∀ p c, c ∈ builtChl M p → c ∈ keysOf (sizes_to_graph M) := by
  intro p c hc
  exact ((mem_successors_built (sizes_to_graph_BuiltS M) p c).mp hc).1

theorem dfs_bridge_fresh (M : Manifest) (hv : validManifest M) (mz : Nat) (hmz : 0 < mz)
    (mft : Rat) (sf lf : Nat) (r : ZRes (List FPath × GState))
    (h : dfs mz mft sf lf (sizes_to_graph M) ROOT = some r) :
    ∃ out g', r = .ok (out, g') ∧ AllCached M g' ∧
      dfsPure mz mft (pureSize M) (pureDesc M) (builtChl M) lf [ROOT] = some out := by
  cases hsd : size_descendants sf (sizes_to_graph M) ROOT with
  | none =>
    simp only [dfs, hsd] at h
    cases h
  | some rsd =>
    simp only [dfs, hsd] at h
    obtain ⟨s, d, g1⟩ := rsd
    have hac : AllCached M g1 := pass1_AllCached M hv sf (s, d, g1) hsd
    exact dfs_loop_bridge lf M hv mz hmz mft sf g1 [ROOT] hac r h

theorem dfs_bridge_cached (M : Manifest) (hv : validManifest M) (mz : Nat) (hmz : 0 < mz)
    (mft : Rat) (sf lf : Nat) (g : GState) (hac : AllCached M g)
    (r : ZRes (List FPath × GState)) (h : dfs mz mft sf lf g ROOT = some r) :
    ∃ out g', r = .ok (out, g') ∧ AllCached M g' ∧
      dfsPure mz mft (pureSize M) (pureDesc M) (builtChl M) lf [ROOT] = some out := by
  cases hsd : size_descendants sf g ROOT with
  | none =>
    simp only [dfs, hsd] at h
    cases h
  | some rsd =>
    simp only [dfs, hsd] at h
    obtain ⟨s, d, g1⟩ := rsd
    obtain ⟨_, _, hac1⟩ := sd_cached sf M hv g ROOT hac _ hsd
    exact dfs_loop_bridge lf M hv mz hmz mft sf g1 [ROOT] hac1 r h

theorem outOnly_ok (x : Option (ZRes (List FPath × GState))) (out : List FPath)
    (h : outOnly x = some (.ok out)) : ∃ g', x = some (.ok (out, g')) := by
  cases x with
  | none => cases h
  | some z =>
    cases z with
    | divZero => cases h
    | ok p =>
      obtain ⟨o, g⟩ := p
      rw [outOnly] at h
      cases h
      exact ⟨g, rfl⟩

theorem dfs_some_root_mem (mz : Nat) (mft : Rat) (sf lf : Nat) (g : GState) (node : FPath)
    (r : ZRes (List FPath × GState)) (h : dfs mz mft sf lf g node = some r) :
    node ∈ keysOf g := by
  cases hsd : size_descendants sf g node with
  | none => simp only [dfs, hsd] at h; cases h
  | some rsd => exact sd_some_mem sf g node rsd hsd

theorem dfsPure_subset (mz : Nat) (mft : Rat) (pS pD : FPath → Nat)
    (chl : FPath → List FPath) (P : FPath → Prop)
    (hchlP : ∀ p c, c ∈ chl p → P c) :
    ∀ (f : Nat) (stack : List FPath) (out : List FPath),
    dfsPure mz mft pS pD chl f stack = some out →
    (∀ st ∈ stack, P st) → ∀ x ∈ out, P x := by
  intro f
  induction f with
  | zero => intro stack out h; cases h
  | succ f ih =>
    intro stack out h hstack x hx
    cases stack with
    | nil =>
      rw [dfsPure_nil] at h
      cases h
      cases hx
    | cons node rest =>
      rw [dfsPure_cons] at h
      by_cases hcond : (decide (pS node < mz) ||
          decide (density (pS node) (pD node) < mft)) = true
      · rw [if_pos hcond] at h
        cases hrec : dfsPure mz mft pS pD chl f rest with
        | none => rw [hrec] at h; cases h
        | some out' =>
          rw [hrec] at h
          cases h
          have hrest : ∀ st ∈ rest, P st :=
            fun st hst => hstack st (List.mem_cons_of_mem _ hst)
          by_cases hsy : decide (pS node < mz) = true
          · rw [hsy, if_pos rfl] at hx
            rcases List.mem_cons.mp hx with rfl | hx
            · exact hstack x (List.mem_cons_self _ _)
            · exact ih rest out' hrec hrest x hx
          · rw [Bool.eq_false_iff.mpr hsy, if_neg (by simp)] at hx
            exact ih rest out' hrec hrest x hx
      · rw [if_neg hcond] at h
        have hsy : decide (pS node < mz) = false := by
          cases hd : decide (pS node < mz)
          · rfl
          · rw [hd, Bool.true_or] at hcond
            simp at hcond
        cases hrec : dfsPure mz mft pS pD chl f
            ((sortDescPaths (chl node)).reverse ++ rest) with
        | none => rw [hrec] at h; cases h
        | some out' =>
          rw [hrec] at h
          cases h
          rw [hsy, if_neg (by simp)] at hx
          refine ih _ out' hrec ?_ x hx
          intro st hst
          rcases List.mem_append.mp hst with hst | hst
          · exact hchlP node st ((mem_sortDescPaths_reverse _ st).mp hst)
          · exact hstack st (List.mem_cons_of_mem _ hst)

theorem filter_eq_singleton {l : List (FPath × FPath)} {x : FPath × FPath}
    (P : FPath × FPath → Bool) (hnd : l.Nodup) (hx : x ∈ l) (hPx : P x = true)
    (hall : ∀ e ∈ l, P e = true → e = x) : l.filter P = [x] := by
  induction l with
  | nil => cases hx
  | cons a l ihl =>
    rcases List.nodup_cons.mp hnd with ⟨hna, hndl⟩
    by_cases hPa : P a = true
    · have hax : a = x := hall a (List.mem_cons_self _ _) hPa
      subst hax
      rw [List.filter_cons_of_pos hPa]
      have : l.filter P = [] := by
        rw [List.filter_eq_nil_iff]
        intro b hb hPb
        exact hna ((hall b (List.mem_cons_of_mem _ hb) hPb) ▸ hb)
      rw [this]
    · rw [List.filter_cons_of_neg (by simpa using hPa)]
      have hxl : x ∈ l := by
        rcases List.mem_cons.mp hx with rfl | hxl
        · exact absurd hPx hPa
        · exact hxl
      exact ihl hndl hxl (fun e he hPe => hall e (List.mem_cons_of_mem _ he) hPe)

/-! ## Claim theorems -/

/-- C1 (amended): the emitted archive roots' subtrees are pairwise
disjoint (no emitted root is an ancestor-or-self of another), so every
path lies in the subtree of AT MOST one emitted root, and every emitted
root is a node of the tree.  The original claim's exhaustiveness half is
false: the density prune discards whole subtrees without emitting
anything, leaving their leaves outside every emitted subtree (see the
counterexample). -/
theorem claim_C1 (M : Manifest) (hv : validManifest M) (mz : Nat) (hmz : 0 < mz)
    (mft : Rat) (sf lf : Nat) (out : List FPath)
    (hrun : outOnly (yield_zips (sizes_to_graph M) mz mft sf lf) = some (.ok out)) :
    out.Pairwise Indep ∧
    (∀ ℓ r1 r2, r1 ∈ out → r2 ∈ out → r1 <+: ℓ → r2 <+: ℓ → r1 = r2) ∧
    (∀ x ∈ out, x ∈ keysOf (sizes_to_graph M)) := by
  obtain ⟨g', hdfs⟩ := outOnly_ok _ _ hrun
  rw [yield_zips] at hdfs
  obtain ⟨out', g'', heq, hac, hpure⟩ := dfs_bridge_fresh M hv mz hmz mft sf lf _ hdfs
  cases heq
  have hpw := dfsPure_pairwise mz mft (pureSize M) (pureDesc M) (builtChl M)
    (builtChl_step M) (builtChl_nodup M) lf [ROOT] out
    (List.pairwise_singleton _ _) hpure
  refine ⟨hpw, ?_, ?_⟩
  · intro ℓ r1 r2 h1 h2 hp1 hp2
    by_cases hne : r1 = r2
    · exact hne
    · exfalso
      have hind : Indep r1 r2 :=
        List.Pairwise.forall indep_symmetric hpw h1 h2 hne
      rcases List.prefix_or_prefix_of_prefix hp1 hp2 with h | h
      · exact hind.1 h
      · exact hind.2 h
  · have hroot : ROOT ∈ keysOf (sizes_to_graph M) :=
      dfs_some_root_mem mz mft sf lf _ ROOT _ hdfs
    exact dfsPure_subset mz mft (pureSize M) (pureDesc M) (builtChl M)
      (fun x => x ∈ keysOf (sizes_to_graph M)) (builtChl_keys M) lf [ROOT] out hpure
      (fun st hst => by rw [ List.mem_singleton.mp hst]; exact hroot)

/-- C1 counterexample: with manifest `{a/b: 2}`, `maxArchiveBytes = 1`
and `minDensityPerUnitSize = 1`, the run succeeds with EMPTY output
(at `a/b` the density `0/(2/1024^4) = 0` is below the floor, so the
subtree is pruned without emission), so the input leaf `a/b` lies
outside every emitted subtree — the partition is not exhaustive. -/
theorem claim_C1_cex :
    outOnly (yield_zips (sizes_to_graph [(["a", "b"], 2)]) 1 1 9 9)
      = some (.ok ([] : List FPath)) ∧
    (["a", "b"], 2) ∈ [(["a", "b"], 2)] ∧
    validManifest [(["a", "b"], 2)] ∧
    (∀ rt ∈ ([] : List FPath), ¬ rt <+: ["a", "b"]) :=
  ⟨by with_unfolding_all rfl, by decide, ⟨by decide, by decide⟩, by decide⟩

/-- Witness for C1 at the manifest `{a: 6, b: 7}` with
`maxArchiveBytes = 10`, where the run emits `[a, b]`. -/
theorem claim_C1_witness :
    ([["a"], ["b"]] : List FPath).Pairwise Indep ∧
    (∀ ℓ r1 r2, r1 ∈ ([["a"], ["b"]] : List FPath) →
      r2 ∈ ([["a"], ["b"]] : List FPath) → r1 <+: ℓ → r2 <+: ℓ → r1 = r2) ∧
    (∀ x ∈ ([["a"], ["b"]] : List FPath),
      x ∈ keysOf (sizes_to_graph [(["a"], 6), (["b"], 7)])) :=
  claim_C1 [(["a"], 6), (["b"], 7)] ⟨by decide, by decide⟩ 10 (by decide) 1 9 9
    [["a"], ["b"]] (by with_unfolding_all rfl)

/-- C2 (amended): an emitted node always has aggregate size strictly
below `maxArchiveBytes` and appears at most once; a node ALL of whose
proper ancestors are kept un-emitted and un-pruned (size at least the
maximum and density at least the floor) is reached and, if its own size
is below the maximum, emitted.  The original claim is false for an
oversized leaf: it is reached but pruned silently, never emitted (see
the counterexample). -/
theorem claim_C2 (M : Manifest) (hv : validManifest M) (mz : Nat) (hmz : 0 < mz)
    (mft : Rat) (sf lf : Nat) (out : List FPath)
    (hrun : outOnly (yield_zips (sizes_to_graph M) mz mft sf lf) = some (.ok out)) :
    (∀ x ∈ out, pureSize M x < mz) ∧
    out.Nodup ∧
    (∀ ℓ ∈ keysOf (sizes_to_graph M), pureSize M ℓ < mz →
      (∀ q, q <+: ℓ → q ≠ ℓ →
        ¬ pureSize M q < mz ∧ ¬ density (pureSize M q) (pureDesc M q) < mft) →
      ℓ ∈ out) := by
  obtain ⟨g', hdfs⟩ := outOnly_ok _ _ hrun
  rw [yield_zips] at hdfs
  obtain ⟨out', g'', heq, hac, hpure⟩ := dfs_bridge_fresh M hv mz hmz mft sf lf _ hdfs
  cases heq
  refine ⟨?_, ?_, ?_⟩
  · intro x hx
    exact dfsPure_emit_lt mz mft (pureSize M) (pureDesc M) (builtChl M)
      lf [ROOT] out hpure x hx
  · have hpw := dfsPure_pairwise mz mft (pureSize M) (pureDesc M) (builtChl M)
      (builtChl_step M) (builtChl_nodup M) lf [ROOT] out
      (List.pairwise_singleton _ _) hpure
    refine hpw.imp ?_
    intro a b h hab
    exact h.1 (hab ▸ List.prefix_refl a)
  · intro ℓ hℓ hlt hanc
    refine dfsPure_chain mz mft (pureSize M) (pureDesc M) (builtChl M)
      lf [ROOT] out ROOT ℓ hpure (List.mem_cons_self _ _) List.nil_prefix ?_ ?_ hlt
    · intro q _ hqpre hqne
      exact (childStep_mem hℓ hqpre (Ne.symm hqne)).1
    · intro q _ hqpre hqne
      exact hanc q hqpre hqne

/-- C2 counterexample: with manifest `{c: 5}` and
`maxArchiveBytes = 5`, the leaf `c` is reached (the root's decision is
(no-yield, no-abort), pushing its only child `c`) but the run's output
is empty: the oversized leaf's density is `0`, below the floor, so it
is pruned without ever being emitted. -/
theorem claim_C2_cex :
    outOnly (yield_zips (sizes_to_graph [(["c"], 5)]) 5 1 9 9)
      = some (.ok ([] : List FPath)) ∧
    successors (sizes_to_graph [(["c"], 5)]) [] = [["c"]] ∧
    successors (sizes_to_graph [(["c"], 5)]) ["c"] = [] ∧
    yield_abort_if 5 1 9
        (sdStateOf (size_descendants 9 (sizes_to_graph [(["c"], 5)]) [])) []
      = some (.ok ((false, false),
          sdStateOf (size_descendants 9 (sizes_to_graph [(["c"], 5)]) []))) ∧
    ["c"] ∉ ([] : List FPath) :=
  ⟨by with_unfolding_all rfl, by with_unfolding_all rfl, by with_unfolding_all rfl,
   by with_unfolding_all rfl, by decide⟩

/-- Witness for C2 at the manifest `{a: 6, b: 8}` with
`maxArchiveBytes = 10`, where the run emits `[a, b]`. -/
theorem claim_C2_witness :
    (∀ x ∈ ([["a"], ["b"]] : List FPath), pureSize [(["a"], 6), (["b"], 8)] x < 10) ∧
    ([["a"], ["b"]] : List FPath).Nodup ∧
    (∀ ℓ ∈ keysOf (sizes_to_graph [(["a"], 6), (["b"], 8)]),
      pureSize [(["a"], 6), (["b"], 8)] ℓ < 10 →
      (∀ q, q <+: ℓ → q ≠ ℓ →
        ¬ pureSize [(["a"], 6), (["b"], 8)] q < 10 ∧
        ¬ density (pureSize [(["a"], 6), (["b"], 8)] q)
            (pureDesc [(["a"], 6), (["b"], 8)] q) < 1) →
      ℓ ∈ ([["a"], ["b"]] : List FPath)) :=
  claim_C2 [(["a"], 6), (["b"], 8)] ⟨by decide, by decide⟩ 10 (by decide) 1 9 9
    [["a"], ["b"]] (by with_unfolding_all rfl)

/-- C3 (amended): a visited node whose aggregate size is at least
`maxArchiveBytes` (and positive) and whose density is strictly below
the floor gets the decision (shouldYield = FALSE, shouldAbort = true):
its subtree is skipped WITHOUT the node being emitted — the traversal
step produces exactly the result of processing the remaining stack.
The original claim (such a directory is emitted as a single root) is
false: `to_yield` requires `size < max`, which fails here (see the
counterexample). -/
theorem claim_C3 (mz : Nat) (mft : Rat) (sf lf : Nat) (g g1 : GState)
    (node : FPath) (rest : List FPath) (s d : Nat)
    (hsd : size_descendants sf g node = some (s, d, g1))
    (hge : mz ≤ s) (hpos : 0 < s) (hden : density s d < mft) :
    yield_abort_if mz mft sf g node = some (.ok ((false, true), g1)) ∧
    ∀ r, dfs_loop mz mft sf (lf + 1) g (node :: rest) = some r →
      ∃ g2, dfs_loop mz mft sf lf g2 rest = some r := by
  have hyai : yield_abort_if mz mft sf g node = some (.ok ((false, true), g1)) := by
    rw [yai_eq mz mft sf g node s d g1 hsd, if_neg (by omega), if_neg (by omega),
      decide_eq_true hden]
  refine ⟨hyai, ?_⟩
  intro r hr
  rw [dfs_loop_cons, hyai] at hr
  have hr3 : (match size_descendants sf g1 node with
      | none => none
      | some (_, _, g2) =>
        match dfs_loop mz mft sf lf g2 rest with
        | none => none
        | some .divZero => some .divZero
        | some (.ok (out, g3)) =>
          some (.ok ((if false then node :: out else out), g3))) = some r := hr
  cases hsd2 : size_descendants sf g1 node with
  | none =>
    rw [hsd2] at hr3
    exact absurd hr3 (fun h => Option.noConfusion h)
  | some rsd2 =>
    obtain ⟨s2, d2, g2⟩ := rsd2
    rw [hsd2] at hr3
    have hr4 : (match dfs_loop mz mft sf lf g2 rest with
        | none => none
        | some .divZero => some .divZero
        | some (.ok (out, g3)) =>
          some (.ok ((if false then node :: out else out), g3))) = some r := hr3
    refine ⟨g2, ?_⟩
    cases hrec : dfs_loop mz mft sf lf g2 rest with
    | none =>
      rw [hrec] at hr4
      exact absurd hr4 (fun h => Option.noConfusion h)
    | some z =>
      rw [hrec] at hr4
      cases z with
      | divZero =>
        have hr5 : (some .divZero : Option (ZRes (List FPath × GState))) = some r := hr4
        cases hr5
        rfl
      | ok p =>
        obtain ⟨out, g3⟩ := p
        have hr5 : (some (.ok ((if false then node :: out else out), g3)) :
            Option (ZRes (List FPath × GState))) = some r := hr4
        cases hr5
        rfl

/-- C3 counterexample: with manifest `{a/b: 2^41}`,
`maxArchiveBytes = 1` and `minDensityPerUnitSize = 1`, the directory
`a` is visited (the root descends into it), has aggregate size
`2^41 ≥ 1` and density `1/2 < 1`, yet the run's output is empty: `a`
is pruned without being emitted, contradicting the claim that it is
emitted as a single archive root. -/
theorem claim_C3_cex :
    outOnly (yield_zips (sizes_to_graph [(["a", "b"], 2 ^ 41)]) 1 1 9 9)
      = some (.ok ([] : List FPath)) ∧
    successors (sizes_to_graph [(["a", "b"], 2 ^ 41)]) ["a"] = [["a", "b"]] ∧
    pureSize [(["a", "b"], 2 ^ 41)] ["a"] = 2 ^ 41 ∧
    ¬ (2 ^ 41 : Nat) < 1 ∧
    pureDesc [(["a", "b"], 2 ^ 41)] ["a"] = 1 ∧
    density (2 ^ 41) 1 < 1 ∧
    yield_abort_if 1 1 9
        (sdStateOf (size_descendants 9 (sizes_to_graph [(["a", "b"], 2 ^ 41)]) [])) []
      = some (.ok ((false, false),
          sdStateOf (size_descendants 9 (sizes_to_graph [(["a", "b"], 2 ^ 41)]) []))) ∧
    ["a"] ∉ ([] : List FPath) :=
  ⟨by with_unfolding_all rfl, by with_unfolding_all rfl, by with_unfolding_all rfl,
   by decide, by with_unfolding_all rfl, by with_unfolding_all decide,
   by with_unfolding_all rfl, by decide⟩

/-- Witness for C3: the directory `a` of the manifest `{a/b: 2^41}`
under `maxArchiveBytes = 1`, `minDensityPerUnitSize = 1`. -/
theorem claim_C3_witness :
    yield_abort_if 1 1 9
        (sdStateOf (size_descendants 9 (sizes_to_graph [(["a", "b"], 2 ^ 41)]) []))
        ["a"]
      = some (.ok ((false, true),
          sdStateOf (size_descendants 9
            (sdStateOf (size_descendants 9 (sizes_to_graph [(["a", "b"], 2 ^ 41)]) []))
            ["a"]))) ∧
    (∀ r, dfs_loop 1 1 9 (8 + 1)
        (sdStateOf (size_descendants 9 (sizes_to_graph [(["a", "b"], 2 ^ 41)]) []))
        (["a"] :: []) = some r →
      ∃ g2, dfs_loop 1 1 9 8 g2 [] = some r) :=
  claim_C3 1 1 9 8
    (sdStateOf (size_descendants 9 (sizes_to_graph [(["a", "b"], 2 ^ 41)]) []))
    (sdStateOf (size_descendants 9
      (sdStateOf (size_descendants 9 (sizes_to_graph [(["a", "b"], 2 ^ 41)]) []))
      ["a"]))
    ["a"] [] (2 ^ 41) 1 (by with_unfolding_all rfl) (by decide) (by decide)
    (by with_unfolding_all decide)

/-- C4: the per-node decision is exactly `shouldYield = size < max`
(strict) and `shouldAbort = shouldYield || density < floor` (given the
aggregate computation succeeds and the decision does not raise), and a
(no-yield, no-abort) decision makes the traversal push the node's
children (sorted descending, then reversed onto the stack top) and
continue — so a node with `size = max` exactly is not emitted and, when
its density is at least the floor, its children are explored. -/
theorem claim_C4 :
    (∀ (mz : Nat) (mft : Rat) (sf : Nat) (g : GState) (node : FPath) (s d : Nat)
      (g1 : GState), size_descendants sf g node = some (s, d, g1) →
      ∀ (y ab : Bool) (g2 : GState),
        yield_abort_if mz mft sf g node = some (.ok ((y, ab), g2)) →
        g2 = g1 ∧ y = decide (s < mz) ∧
          ab = (decide (s < mz) || decide (density s d < mft))) ∧
    (∀ (mz : Nat) (mft : Rat) (sf lf : Nat) (g g1 : GState) (node : FPath)
      (rest : List FPath),
      yield_abort_if mz mft sf g node = some (.ok ((false, false), g1)) →
      dfs_loop mz mft sf (lf + 1) g (node :: rest) =
        dfs_loop mz mft sf lf g1 ((sortDescPaths (successors g1 node)).reverse ++ rest)) := by
  constructor
  · intro mz mft sf g node s d g1 hsd y ab g2 hyai
    rw [yai_eq mz mft sf g node s d g1 hsd] at hyai
    by_cases hlt : s < mz
    · rw [if_pos hlt] at hyai
      cases hyai
      refine ⟨rfl, (decide_eq_true hlt).symm, ?_⟩
      rw [decide_eq_true hlt, Bool.true_or]
    · rw [if_neg hlt] at hyai
      by_cases hz : s = 0
      · rw [if_pos hz] at hyai
        simp at hyai
      · rw [if_neg hz] at hyai
        cases hyai
        refine ⟨rfl, (decide_eq_false hlt).symm, ?_⟩
        rw [decide_eq_false hlt, Bool.false_or]
  · intro mz mft sf lf g g1 node rest hyai
    rw [dfs_loop_cons, hyai]
    have hgoal : (match dfs_loop mz mft sf lf g1
          ((sortDescPaths (successors g1 node)).reverse ++ rest) with
        | none => none
        | some .divZero => some .divZero
        | some (.ok (out, g3)) =>
          some (.ok ((if false then node :: out else out), g3)))
        = dfs_loop mz mft sf lf g1
            ((sortDescPaths (successors g1 node)).reverse ++ rest) := by
      cases hrec : dfs_loop mz mft sf lf g1
          ((sortDescPaths (successors g1 node)).reverse ++ rest) with
      | none => rfl
      | some z =>
        cases z with
        | divZero => rfl
        | ok p =>
          obtain ⟨out, g3⟩ := p
          rfl
    exact hgoal

/-- Witness for C4 at the directory `a` of the graph built from
`{a/x: 3, a/y: 4}` (aggregate size 7) with `maxArchiveBytes = 7`: the
node is not emitted (`7 < 7` is false) and, its density being above the
floor `10`, is not pruned either. -/
theorem claim_C4_witness :
    sdStateOf (size_descendants 9 (sizes_to_graph [(["a", "x"], 3), (["a", "y"], 4)]) ["a"])
      = sdStateOf (size_descendants 9
          (sizes_to_graph [(["a", "x"], 3), (["a", "y"], 4)]) ["a"]) ∧
    false = decide (7 < 7) ∧
    false = (decide (7 < 7) || decide (density 7 2 < 10)) :=
  claim_C4.1 7 10 9 (sizes_to_graph [(["a", "x"], 3), (["a", "y"], 4)]) ["a"] 7 2
    (sdStateOf (size_descendants 9 (sizes_to_graph [(["a", "x"], 3), (["a", "y"], 4)]) ["a"]))
    (by with_unfolding_all rfl) false false
    (sdStateOf (size_descendants 9 (sizes_to_graph [(["a", "x"], 3), (["a", "y"], 4)]) ["a"]))
    (by with_unfolding_all rfl)

/-- C5: when `maxArchiveBytes` is positive, a node whose aggregate size
is 0 satisfies `size < max`, so the Python `or` short-circuits:
the density division is never evaluated (the result is `ok`, not a
ZeroDivisionError) and the node is emitted-and-pruned. -/
theorem claim_C5 (mz : Nat) (hmz : 0 < mz) (mft : Rat) (sf : Nat) (g g1 : GState)
    (node : FPath) (d : Nat)
    (hsd : size_descendants sf g node = some (0, d, g1)) :
    yield_abort_if mz mft sf g node = some (.ok ((true, true), g1)) := by
  rw [yai_eq mz mft sf g node 0 d g1 hsd, if_pos hmz]

/-- Witness for C5 at the zero-size directory `a` of the graph built
from `{a/x: 0}`. -/
theorem claim_C5_witness :
    0 < 5 ∧
    yield_abort_if 5 1 9 (sizes_to_graph [(["a", "x"], 0)]) ["a"]
      = some (.ok ((true, true),
          sdStateOf (size_descendants 9 (sizes_to_graph [(["a", "x"], 0)]) ["a"]))) :=
  ⟨by decide,
   claim_C5 5 (by decide) 1 9 (sizes_to_graph [(["a", "x"], 0)])
     (sdStateOf (size_descendants 9 (sizes_to_graph [(["a", "x"], 0)]) ["a"]))
     ["a"] 1 (by with_unfolding_all rfl)⟩

/-- C6 (code bug): caching DOES change the returned value.  On the tree
built from `{a/x: 0}`, the first aggregate computation at `a` correctly
returns `(0, 1)` (summing `(child_size, 1 + child_descendants)` over
the one child) and caches it; but because the cached size 0 is falsy,
a second call re-enters the recompute branch with `d = d or 0` seeded
from the STALE cached descendant count and re-adds the children,
returning `(0, 2)` — the same node yields two different values. -/
theorem claim_C6 :
    sdValOf (size_descendants 9 (sizes_to_graph [(["a", "x"], 0)]) ["a"]) = some (0, 1) ∧
    sdValOf (size_descendants 9
        (sdStateOf (size_descendants 9 (sizes_to_graph [(["a", "x"], 0)]) ["a"]))
        ["a"]) = some (0, 2) ∧
    ((0, 1) : Nat × Nat) ≠ (0, 2) :=
  ⟨by with_unfolding_all rfl, by with_unfolding_all rfl, by decide⟩

/-- C7 (amended): when no record path is an ancestor of another (and
records are distinct and the manifest nonempty), the stored
`total_size` is the sum of all record sizes and the stored
`total_descendants` is the number of distinct nodes minus one (the root
sentinel, which is always a node).  Without the no-ancestor condition
the descendant count is inflated: a record whose path was already
created as an inferred ancestor is counted again (see the
counterexample). -/
theorem claim_C7 (M : Manifest) (hv : validManifest M) (hne : M ≠ []) :
    graph_total_size (sizes_to_graph M) = (M.map (fun r => r.2)).sum ∧
    ROOT ∈ keysOf (sizes_to_graph M) ∧
    graph_total_descendants (sizes_to_graph M) =
      ((keysOf (sizes_to_graph M)).length : Int) - 1 := by
  have hb := sizes_to_graph_BuiltV M hv
  refine ⟨hb.tsize, ?_, ?_⟩
  · obtain ⟨r, hr⟩ := List.exists_mem_of_ne_nil M hne
    exact (hb.mem_keys ROOT).mpr ⟨r, hr, List.nil_prefix⟩
  · rw [graph_total_descendants, hb.tdesc]

/-- C7 counterexample: the manifest `{a/b: 5, a: 7}` has pairwise
distinct record paths, builds a tree with 3 distinct nodes
(`.`, `a`, `a/b`), yet stores `total_descendants = 3` instead of
`3 - 1 = 2`: the record `a` was already present as an inferred ancestor
and is counted a second time. -/
theorem claim_C7_cex :
    (["a", "b"] : FPath) ≠ ["a"] ∧
    graph_total_descendants (sizes_to_graph [(["a", "b"], 5), (["a"], 7)]) = 3 ∧
    ((keysOf (sizes_to_graph [(["a", "b"], 5), (["a"], 7)])).length : Int) - 1 = 2 ∧
    (3 : Int) ≠ 2 :=
  ⟨by decide, by with_unfolding_all rfl, by with_unfolding_all rfl, by decide⟩

/-- Witness for C7 at the manifest `{a: 1, b: 2}`. -/
theorem claim_C7_witness :
    graph_total_size (sizes_to_graph [(["a"], 1), (["b"], 2)]) =
      ([(["a"], 1), (["b"], 2)].map (fun r => r.2)).sum ∧
    ROOT ∈ keysOf (sizes_to_graph [(["a"], 1), (["b"], 2)]) ∧
    graph_total_descendants (sizes_to_graph [(["a"], 1), (["b"], 2)]) =
      ((keysOf (sizes_to_graph [(["a"], 1), (["b"], 2)])).length : Int) - 1 :=
  claim_C7 [(["a"], 1), (["b"], 2)] ⟨by decide, by decide⟩ (by decide)

/-- C8: children are pushed in descending path order onto the LIFO
stack (so any two stack entries in push order are descending, i.e. the
reversed sorted list is ascending), and consequently two emitted
siblings `a < b` under one parent appear in the output with `a`
immediately-or-later before `b`: `[a, b]` is a sublist of the
output. -/
theorem claim_C8 (M : Manifest) (hv : validManifest M) (mz : Nat) (hmz : 0 < mz)
    (mft : Rat) (sf lf : Nat) (out : List FPath)
    (hrun : outOnly (yield_zips (sizes_to_graph M) mz mft sf lf) = some (.ok out))
    (a b : FPath) (ha : a ∈ out) (hb : b ∈ out)
    (hsib : a.dropLast = b.dropLast) (hab : pathLtB a b = true) :
    List.Sublist [a, b] out ∧
    (∀ l : List FPath, l.Nodup →
      ((sortDescPaths l).reverse).Pairwise (fun x y => pathLtB x y = true)) := by
  obtain ⟨g', hdfs⟩ := outOnly_ok _ _ hrun
  rw [yield_zips] at hdfs
  obtain ⟨out', g'', heq, hac, hpure⟩ := dfs_bridge_fresh M hv mz hmz mft sf lf _ hdfs
  cases heq
  refine ⟨?_, fun l hnd => sortDescPaths_reverse_pairwise_lt l hnd⟩
  exact dfsPure_sib mz mft (pureSize M) (pureDesc M) (builtChl M)
    (builtChl_step M) (builtChl_nodup M) lf [ROOT] out
    (List.pairwise_singleton _ _) hpure a b ha hb hsib hab

/-- Witness for C8 at the manifest `{b: 6, a: 6, c: 6}` with
`maxArchiveBytes = 10`: the emitted siblings come out as `[a, b, c]`,
and in particular `[a, b]` is a sublist. -/
theorem claim_C8_witness :
    List.Sublist ([["a"], ["b"]] : List FPath) [["a"], ["b"], ["c"]] ∧
    (∀ l : List FPath, l.Nodup →
      ((sortDescPaths l).reverse).Pairwise (fun x y => pathLtB x y = true)) :=
  claim_C8 [(["b"], 6), (["a"], 6), (["c"], 6)] ⟨by decide, by decide⟩ 10 (by decide)
    1 9 9 [["a"], ["b"], ["c"]] (by with_unfolding_all rfl) ["a"] ["b"]
    (by decide) (by decide) (by decide) (by with_unfolding_all decide)

/-- C9: the selector is deterministic — a second run on the same tree
(including the cache mutations the first run left behind) with the same
thresholds produces the identical output sequence. -/
theorem claim_C9 (M : Manifest) (hv : validManifest M) (mz : Nat) (hmz : 0 < mz)
    (mft : Rat) (sf lf : Nat) (out1 out2 : List FPath) (g1 g2 : GState)
    (h1 : yield_zips (sizes_to_graph M) mz mft sf lf = some (.ok (out1, g1)))
    (h2 : yield_zips g1 mz mft sf lf = some (.ok (out2, g2))) :
    out2 = out1 := by
  rw [yield_zips] at h1 h2
  obtain ⟨o1, gg1, he1, hac1, hp1⟩ := dfs_bridge_fresh M hv mz hmz mft sf lf _ h1
  cases he1
  obtain ⟨o2, gg2, he2, hac2, hp2⟩ := dfs_bridge_cached M hv mz hmz mft sf lf g1 hac1 _ h2
  cases he2
  rw [hp1] at hp2
  exact (Option.some.inj hp2).symm

/-- Witness for C9 at the manifest `{a: 6, b: 7}` with
`maxArchiveBytes = 10`: both runs emit `[a, b]`. -/
theorem claim_C9_witness :
    yield_zips (sizes_to_graph [(["a"], 6), (["b"], 7)]) 10 1 9 9
      = some (.ok ([["a"], ["b"]],
          stateAfter (yield_zips (sizes_to_graph [(["a"], 6), (["b"], 7)]) 10 1 9 9))) ∧
    ([["a"], ["b"]] : List FPath) = [["a"], ["b"]] :=
  ⟨by with_unfolding_all rfl,
   claim_C9 [(["a"], 6), (["b"], 7)] ⟨by decide, by decide⟩ 10 (by decide) 1 9 9
     [["a"], ["b"]] [["a"], ["b"]]
     (stateAfter (yield_zips (sizes_to_graph [(["a"], 6), (["b"], 7)]) 10 1 9 9))
     (stateAfter (yield_zips
       (stateAfter (yield_zips (sizes_to_graph [(["a"], 6), (["b"], 7)]) 10 1 9 9))
       10 1 9 9))
     (by with_unfolding_all rfl) (by with_unfolding_all rfl)⟩

/-- C10: in the built graph every edge goes from a node to a node one
component longer obtained by appending a component (so edges strictly
lengthen and the structure is acyclic), every non-root node has EXACTLY
one incoming edge — from its path minus the last component — the key
set is closed under taking prefixes (the tree is rooted at `.`), and
a nonempty manifest always creates the root node; all this despite the
ancestor walk stopping at the first already-present ancestor. -/
theorem claim_C10 (M : Manifest) (hd : (M.map (fun r => r.1)).Nodup) :
    (∀ e ∈ (sizes_to_graph M).edges,
      e.2 ≠ [] ∧ e.1 = e.2.dropLast ∧ e.1.length < e.2.length ∧
      e.1 ∈ keysOf (sizes_to_graph M) ∧ e.2 ∈ keysOf (sizes_to_graph M)) ∧
    (∀ p ∈ keysOf (sizes_to_graph M), p ≠ [] →
      (sizes_to_graph M).edges.filter (fun e => e.2 == p) = [(p.dropLast, p)]) ∧
    (∀ p ∈ keysOf (sizes_to_graph M), ∀ k, p.take k ∈ keysOf (sizes_to_graph M)) ∧
    (M ≠ [] → ROOT ∈ keysOf (sizes_to_graph M)) := by
  have hb := sizes_to_graph_BuiltS M
  refine ⟨?_, ?_, hb.keys_closed, ?_⟩
  · intro e he
    obtain ⟨h1, h2, h3⟩ := hb.edge_shape e he
    have hlen : e.1.length < e.2.length := by
      rw [h2, List.length_dropLast]
      have : 0 < e.2.length := List.length_pos.mpr h1
      omega
    refine ⟨h1, h2, hlen, ?_, h3⟩
    have : e.1 = e.2.take (e.2.length - 1) := by
      rw [h2, List.dropLast_eq_take]
    rw [this]
    exact hb.keys_closed e.2 h3 _
  · intro p hp hne
    refine filter_eq_singleton (fun e => e.2 == p) hb.edges_nodup
      (hb.edge_complete p hp hne) (by simp) ?_
    intro e he hPe
    obtain ⟨e1, e2⟩ := e
    obtain ⟨_, h2, _⟩ := hb.edge_shape (e1, e2) he
    simp only [beq_iff_eq] at hPe
    simp only at h2
    rw [hPe] at h2
    rw [hPe, h2]
  · intro hne
    obtain ⟨r, hr⟩ := List.exists_mem_of_ne_nil M hne
    exact (hb.mem_keys ROOT).mpr ⟨r, hr, List.nil_prefix⟩

/-- Witness for C10 at the manifest `{d/e: 1, d: 2}` (distinct record
paths; the second record is an already-inferred ancestor). -/
theorem claim_C10_witness :
    (∀ e ∈ (sizes_to_graph [(["d", "e"], 1), (["d"], 2)]).edges,
      e.2 ≠ [] ∧ e.1 = e.2.dropLast ∧ e.1.length < e.2.length ∧
      e.1 ∈ keysOf (sizes_to_graph [(["d", "e"], 1), (["d"], 2)]) ∧
      e.2 ∈ keysOf (sizes_to_graph [(["d", "e"], 1), (["d"], 2)])) ∧
    (∀ p ∈ keysOf (sizes_to_graph [(["d", "e"], 1), (["d"], 2)]), p ≠ [] →
      (sizes_to_graph [(["d", "e"], 1), (["d"], 2)]).edges.filter (fun e => e.2 == p)
        = [(p.dropLast, p)]) ∧
    (∀ p ∈ keysOf (sizes_to_graph [(["d", "e"], 1), (["d"], 2)]), ∀ k,
      p.take k ∈ keysOf (sizes_to_graph [(["d", "e"], 1), (["d"], 2)])) ∧
    ([(["d", "e"], 1), (["d"], 2)] ≠ ([] : Manifest) →
      ROOT ∈ keysOf (sizes_to_graph [(["d", "e"], 1), (["d"], 2)])) :=
  claim_C10 [(["d", "e"], 1), (["d"], 2)] (by decide)

end ZipTree
